import Mathlib

/-!
Shallow embedding of the divide-and-conquer sorting routines of
src/async000/sort.cpp.

The buffer an iterator pair ranges over is modelled as a total map
from positions to elements, f : Nat → α, over a linear order α; an
iterator range [start, end) becomes a pair of Nat positions (s, e).
Every loop of the source is embedded as a structurally recursive
function whose first argument is fuel equal to the exact number of
iterations the loop can still make, so that every definition is
computable by the kernel; top level wrappers supply that fuel, and
fuel-irrelevance lemmas below show the fuel never runs out on the
path the source takes.

Calls into the C++ standard library are modelled by their documented
contracts: std::sort replaces the range by a sorted permutation of
itself (canonically, insertion sort of the window), std::inplace_merge
merges two adjacent sorted subranges, std::iter_swap exchanges two
positions, and std::future is a stored task outcome whose wait()
blocks without rethrowing and whose get() would rethrow.
-/

set_option linter.unusedVariables false
set_option linter.unusedSectionVars false

variable {α : Type} [LinearOrder α]

/-- Threshold from the source: constexpr auto MAX_PART = 1u << 14. -/
def MAX_PART : Nat := 1 <<< 14

/-- Pointwise update of the buffer at one position (a single store). -/
def upd (f : Nat → α) (i : Nat) (v : α) : Nat → α :=
  fun j => if j = i then v else f j

/-- Model of std::iter_swap: exchange the values at positions i and j. -/
def swapf (f : Nat → α) (i j : Nat) : Nat → α :=
  upd (upd f i (f j)) j (f i)

/-- Contents of the n consecutive positions starting at s. -/
def windowGo : Nat → (Nat → α) → Nat → List α
  | 0, _, _ => []
  | n + 1, f, s => f s :: windowGo n f (s + 1)

/-- Contents of the half-open range of positions [s, e). -/
def window (f : Nat → α) (s e : Nat) : List α := windowGo (e - s) f s

/-- Two buffers agree at every position of the half-open range [s, e). -/
def Agree (f g : Nat → α) (s e : Nat) : Prop :=
  ∀ i, s ≤ i → i < e → f i = g i

/-- Store a list of values at consecutive positions starting at s. -/
def writeBack : (Nat → α) → Nat → List α → (Nat → α)
  | f, _, [] => f
  | f, s, v :: l => writeBack (upd f s v) (s + 1) l

/-- Model of the baseline call sort(start, end): std::sort leaves the range
holding a non-decreasing permutation of its previous contents, which over a
linear order is the unique sorted permutation of the window. -/
def sortRange (f : Nat → α) (s e : Nat) : Nat → α :=
  writeBack f s (List.insertionSort (· ≤ ·) (window f s e))

/-- Fueled two-way merge of two sorted lists, taking from the left list on
ties as the stable std::inplace_merge does. -/
def mergeLGo : Nat → List α → List α → List α
  | 0, xs, ys => xs ++ ys
  | _ + 1, [], ys => ys
  | _ + 1, x :: xs, [] => x :: xs
  | fuel + 1, x :: xs, y :: ys =>
    if x ≤ y then x :: mergeLGo fuel xs (y :: ys) else y :: mergeLGo fuel (x :: xs) ys

/-- Two-way merge of two sorted lists. -/
def mergeL (xs ys : List α) : List α := mergeLGo (xs.length + ys.length) xs ys

/-- Model of std::inplace_merge(start, middle, end): the two adjacent sorted
subranges [s, m) and [m, e) are replaced by their merge. -/
def mergeRange (f : Nat → α) (s m e : Nat) : Nat → α :=
  writeBack f s (mergeL (window f s m) (window f m e))

/-- The split point of the merge variants: middle = start + size / 2. -/
def mergeMid (s e : Nat) : Nat := s + (e - s) / 2

/-- Fueled body of merge_sort from the source: sizes at most MAX_PART go to
the baseline sort, larger ranges split at the midpoint, recurse on each half
and merge in place. -/
def mergeGo : Nat → (Nat → α) → Nat → Nat → (Nat → α)
  | 0, f, _, _ => f
  | fuel + 1, f, s, e =>
    if e - s ≤ MAX_PART then sortRange f s e
    else mergeRange (mergeGo fuel (mergeGo fuel f s (mergeMid s e)) (mergeMid s e) e)
      s (mergeMid s e) e

/-- merge_sort from the source, with fuel equal to the range size. -/
def merge_sort (f : Nat → α) (s e : Nat) : Nat → α := mergeGo (e - s) f s e

/-- Fueled body of async_merge_sort from the source: the same recursion as
merge_sort, with the two recursive calls spawned as tasks on the two disjoint
halves and joined (task1.wait(); task2.wait()) before the in-place merge; the
joined buffer state is the composition of the two disjoint effects. -/
def amGo : Nat → (Nat → α) → Nat → Nat → (Nat → α)
  | 0, f, _, _ => f
  | fuel + 1, f, s, e =>
    if e - s ≤ MAX_PART then sortRange f s e
    else mergeRange (amGo fuel (amGo fuel f s (mergeMid s e)) (mergeMid s e) e)
      s (mergeMid s e) e

/-- async_merge_sort from the source, with fuel equal to the range size. -/
def async_merge_sort (f : Nat → α) (s e : Nat) : Nat → α := amGo (e - s) f s e

/-- Loop: while (head < end && *head == pivot) ++head. -/
def scanEqGo : Nat → (Nat → α) → α → Nat → Nat → Nat
  | 0, _, _, h, _ => h
  | fuel + 1, f, p, h, e => if h < e ∧ f h = p then scanEqGo fuel f p (h + 1) e else h

/-- Position reached by the equal-run scan starting at h with bound e. -/
def scanEq (f : Nat → α) (p : α) (h e : Nat) : Nat := scanEqGo (e - h) f p h e

/-- Loop: while (head < tail && *head <= pivot) ++head. -/
def advGo : Nat → (Nat → α) → α → Nat → Nat → Nat
  | 0, _, _, h, _ => h
  | fuel + 1, f, p, h, t => if h < t ∧ f h ≤ p then advGo fuel f p (h + 1) t else h

/-- Position reached by the head pointer of the exchange loop. -/
def adv (f : Nat → α) (p : α) (h t : Nat) : Nat := advGo (t - h) f p h t

/-- Loop: while (head < tail && *tail > pivot) --tail. -/
def retGo : Nat → (Nat → α) → α → Nat → Nat → Nat
  | 0, _, _, _, t => t
  | fuel + 1, f, p, h, t => if h < t ∧ p < f t then retGo fuel f p h (t - 1) else t

/-- Position reached by the tail pointer of the exchange loop. -/
def ret (f : Nat → α) (p : α) (h t : Nat) : Nat := retGo (t - h) f p h t

/-- The two-pointer exchange loop shared by quick_sort and async_quick_sort:
advance head over elements at most the pivot, retreat tail over elements
greater than the pivot, break when the pointers meet or cross, otherwise
iter_swap(head++, tail--) and continue. -/
def partLoopGo : Nat → (Nat → α) → α → Nat → Nat → (Nat → α) × Nat × Nat
  | 0, f, _, h, t => (f, h, t)
  | fuel + 1, f, p, h, t =>
    if h < t then
      if ret f p (adv f p h t) t ≤ adv f p h t then (f, adv f p h t, ret f p (adv f p h t) t)
      else partLoopGo fuel (swapf f (adv f p h t) (ret f p (adv f p h t) t)) p
        (adv f p h t + 1) (ret f p (adv f p h t) t - 1)
    else (f, h, t)

/-- The exchange loop, with fuel equal to the pointer gap. -/
def partLoop (f : Nat → α) (p : α) (h t : Nat) : (Nat → α) × Nat × Nat :=
  partLoopGo (t - h) f p h t

/-- Pivot first chosen by quick_sort: pivot = start[size / 2]. -/
def qsPivot (f : Nat → α) (s e : Nat) : α := f (s + (e - s) / 2)

/-- Result of the equal-run scan of quick_sort, from start with its pivot. -/
def qsScan (f : Nat → α) (s e : Nat) : Nat := scanEq f (qsPivot f s e) s e

/-- Pivot and head of quick_sort after the degenerate-run adjustment:
if (*head < pivot) { pivot = *head; head = start; }. -/
def qsPH (f : Nat → α) (s e : Nat) : α × Nat :=
  if f (qsScan f s e) < qsPivot f s e then (f (qsScan f s e), s)
  else (qsPivot f s e, qsScan f s e)

/-- Buffer and split point after the whole partition phase of quick_sort:
the exchange loop runs from the adjusted head with tail = end - 1, and the
final adjustment is if (*head <= pivot) ++head. -/
def qsPart (f : Nat → α) (s e : Nat) : (Nat → α) × Nat :=
  ((partLoop f (qsPH f s e).1 (qsPH f s e).2 (e - 1)).1,
    if (partLoop f (qsPH f s e).1 (qsPH f s e).2 (e - 1)).1
        (partLoop f (qsPH f s e).1 (qsPH f s e).2 (e - 1)).2.1 ≤ (qsPH f s e).1
    then (partLoop f (qsPH f s e).1 (qsPH f s e).2 (e - 1)).2.1 + 1
    else (partLoop f (qsPH f s e).1 (qsPH f s e).2 (e - 1)).2.1)

/-- Split point handed by quick_sort to its two recursive calls. -/
def qsHead (f : Nat → α) (s e : Nat) : Nat := (qsPart f s e).2

/-- Fueled body of quick_sort from the source: return on size < 2, return on a
uniform range detected by the equal-run scan, otherwise partition and recurse
on [start, head) and [head, end). -/
def qsGo : Nat → (Nat → α) → Nat → Nat → (Nat → α)
  | 0, f, _, _ => f
  | fuel + 1, f, s, e =>
    if e - s < 2 then f
    else if qsScan f s e = e then f
    else qsGo fuel (qsGo fuel (qsPart f s e).1 s (qsHead f s e)) (qsHead f s e) e

/-- quick_sort from the source, with fuel equal to the range size. -/
def quick_sort (f : Nat → α) (s e : Nat) : Nat → α := qsGo (e - s) f s e

/-- Result of the equal-run scan of async_quick_sort, whose first pivot is
pivot = *start. -/
def aqsScan (f : Nat → α) (s e : Nat) : Nat := scanEq f (f s) s e

/-- Buffer, pivot and head of async_quick_sort after its degenerate-run
adjustment: if (*head < pivot) { iter_swap(head, start); head = start + 1;
pivot = *start; }. -/
def aqsFPH (f : Nat → α) (s e : Nat) : (Nat → α) × α × Nat :=
  if f (aqsScan f s e) < f s then
    (swapf f (aqsScan f s e) s, swapf f (aqsScan f s e) s s, s + 1)
  else (f, f s, aqsScan f s e)

/-- Buffer and split point after the whole partition phase of
async_quick_sort. -/
def aqsPart (f : Nat → α) (s e : Nat) : (Nat → α) × Nat :=
  ((partLoop (aqsFPH f s e).1 (aqsFPH f s e).2.1 (aqsFPH f s e).2.2 (e - 1)).1,
    if (partLoop (aqsFPH f s e).1 (aqsFPH f s e).2.1 (aqsFPH f s e).2.2 (e - 1)).1
        (partLoop (aqsFPH f s e).1 (aqsFPH f s e).2.1 (aqsFPH f s e).2.2 (e - 1)).2.1
        ≤ (aqsFPH f s e).2.1
    then (partLoop (aqsFPH f s e).1 (aqsFPH f s e).2.1 (aqsFPH f s e).2.2 (e - 1)).2.1 + 1
    else (partLoop (aqsFPH f s e).1 (aqsFPH f s e).2.1 (aqsFPH f s e).2.2 (e - 1)).2.1)

/-- Split point handed by async_quick_sort to its two recursive calls. -/
def aqsHead (f : Nat → α) (s e : Nat) : Nat := (aqsPart f s e).2

/-- Fueled body of async_quick_sort from the source: return on size < 2 or a
uniform range, partition, then on sizes at most MAX_PART run the sequential
quick_sort on the two parts, else spawn async_quick_sort on the two disjoint
parts as tasks and join both; the joined buffer state is the composition of
the two disjoint effects. -/
def aqsGo : Nat → (Nat → α) → Nat → Nat → (Nat → α)
  | 0, f, _, _ => f
  | fuel + 1, f, s, e =>
    if e - s < 2 then f
    else if aqsScan f s e = e then f
    else if e - s ≤ MAX_PART then
      quick_sort (quick_sort (aqsPart f s e).1 s (aqsHead f s e)) (aqsHead f s e) e
    else aqsGo fuel (aqsGo fuel (aqsPart f s e).1 s (aqsHead f s e)) (aqsHead f s e) e

/-- async_quick_sort from the source, with fuel equal to the range size. -/
def async_quick_sort (f : Nat → α) (s e : Nat) : Nat → α := aqsGo (e - s) f s e

/-- Number of partition-and-recurse steps quick_sort performs on a range:
0 whenever it returns without recursing, and 1 plus the counts of the two
recursive calls otherwise.  A call that delegated to a baseline sort and
returned without further splitting would score 0. -/
def qsSplitsGo : Nat → (Nat → α) → Nat → Nat → Nat
  | 0, _, _, _ => 0
  | fuel + 1, f, s, e =>
    if e - s < 2 then 0
    else if qsScan f s e = e then 0
    else 1 + qsSplitsGo fuel (qsPart f s e).1 s (qsHead f s e)
      + qsSplitsGo fuel (qsGo fuel (qsPart f s e).1 s (qsHead f s e)) (qsHead f s e) e

/-- Split count of quick_sort, with fuel equal to the range size. -/
def quick_sort_splits (f : Nat → α) (s e : Nat) : Nat := qsSplitsGo (e - s) f s e

/-- Number of partition-and-recurse steps async_quick_sort performs on a
range, counting the steps of the sequential quick_sort calls it hands small
ranges to; 0 whenever it returns without recursing. -/
def aqsSplitsGo : Nat → (Nat → α) → Nat → Nat → Nat
  | 0, _, _, _ => 0
  | fuel + 1, f, s, e =>
    if e - s < 2 then 0
    else if aqsScan f s e = e then 0
    else if e - s ≤ MAX_PART then
      1 + quick_sort_splits (aqsPart f s e).1 s (aqsHead f s e)
        + quick_sort_splits (quick_sort (aqsPart f s e).1 s (aqsHead f s e)) (aqsHead f s e) e
    else 1 + aqsSplitsGo fuel (aqsPart f s e).1 s (aqsHead f s e)
      + aqsSplitsGo fuel (aqsGo fuel (aqsPart f s e).1 s (aqsHead f s e)) (aqsHead f s e) e

/-- Split count of async_quick_sort, with fuel equal to the range size. -/
def async_quick_sort_splits (f : Nat → α) (s e : Nat) : Nat := aqsSplitsGo (e - s) f s e

/-- async_merge_sort under an explicit schedule: the oracle o picks, at each
fork, which of the two spawned subtasks acts on the shared buffer first; both
are joined before the in-place merge, as in the source. -/
def amGoS (o : Nat → Nat → Bool) : Nat → (Nat → α) → Nat → Nat → (Nat → α)
  | 0, f, _, _ => f
  | fuel + 1, f, s, e =>
    if e - s ≤ MAX_PART then sortRange f s e
    else if o s e then
      mergeRange (amGoS o fuel (amGoS o fuel f s (mergeMid s e)) (mergeMid s e) e)
        s (mergeMid s e) e
    else
      mergeRange (amGoS o fuel (amGoS o fuel f (mergeMid s e) e) s (mergeMid s e))
        s (mergeMid s e) e

/-- async_quick_sort under an explicit schedule, in the manner of amGoS. -/
def aqsGoS (o : Nat → Nat → Bool) : Nat → (Nat → α) → Nat → Nat → (Nat → α)
  | 0, f, _, _ => f
  | fuel + 1, f, s, e =>
    if e - s < 2 then f
    else if aqsScan f s e = e then f
    else if e - s ≤ MAX_PART then
      quick_sort (quick_sort (aqsPart f s e).1 s (aqsHead f s e)) (aqsHead f s e) e
    else if o s e then
      aqsGoS o fuel (aqsGoS o fuel (aqsPart f s e).1 s (aqsHead f s e)) (aqsHead f s e) e
    else
      aqsGoS o fuel (aqsGoS o fuel (aqsPart f s e).1 (aqsHead f s e) e) s (aqsHead f s e)

/-- Outcome a spawned task stores in its std::future: normal completion, or
an exception that escaped the task. -/
inductive TaskOutcome (ε : Type) where
  | ok : TaskOutcome ε
  | err : ε → TaskOutcome ε
deriving DecidableEq

/-- Model of std::future::wait(): it blocks until the shared state is ready
and returns void; unlike get(), it does not rethrow a stored exception. -/
def TaskOutcome.wait {ε : Type} (t : TaskOutcome ε) : Unit := ()

/-- The join the source performs in async_merge_sort and async_quick_sort:
task1.wait(); task2.wait(); after which the parent carries on normally, so
the parent's own outcome is normal completion whatever the children stored. -/
def asyncJoin {ε : Type} (t₁ t₂ : TaskOutcome ε) : TaskOutcome ε :=
  let _ := t₁.wait
  let _ := t₂.wait
  TaskOutcome.ok

/-! Basic facts about stores, swaps, windows and write-back. -/

theorem upd_self (f : Nat → α) (i : Nat) (v : α) : upd f i v i = v := by
  simp [upd]

theorem upd_other (f : Nat → α) (i j : Nat) (v : α) (h : j ≠ i) : upd f i v j = f j := by
  simp [upd, h]

theorem swapf_fst (f : Nat → α) (i j : Nat) : swapf f i j i = f j := by
  by_cases h : i = j
  · subst h; simp [swapf, upd]
  · simp [swapf, upd, h]

theorem swapf_snd (f : Nat → α) (i j : Nat) : swapf f i j j = f i := by
  simp [swapf, upd]

theorem swapf_other (f : Nat → α) (i j k : Nat) (h1 : k ≠ i) (h2 : k ≠ j) :
    swapf f i j k = f k := by
  simp [swapf, upd, h1, h2]

theorem windowGo_length (f : Nat → α) : ∀ n s, (windowGo n f s).length = n := by
  intro n
  induction n with
  | zero => intro s; rfl
  | succ k ih => intro s; simp [windowGo, ih]

theorem windowGo_append (f : Nat → α) (b : Nat) :
    ∀ a s, windowGo (a + b) f s = windowGo a f s ++ windowGo b f (s + a) := by
  intro a
  induction a with
  | zero => intro s; simp [windowGo]
  | succ k ih =>
    intro s
    have harith : k + 1 + b = (k + b) + 1 := by omega
    rw [harith]
    show f s :: windowGo (k + b) f (s + 1) = (f s :: windowGo k f (s + 1)) ++ _
    rw [ih (s + 1)]
    have harith2 : s + 1 + k = s + (k + 1) := by omega
    rw [harith2]
    simp

theorem mem_windowGo (f : Nat → α) :
    ∀ n s x, x ∈ windowGo n f s ↔ ∃ i, s ≤ i ∧ i < s + n ∧ f i = x := by
  intro n
  induction n with
  | zero =>
    intro s x
    constructor
    · intro h; cases h
    · rintro ⟨i, h1, h2, _⟩; omega
  | succ k ih =>
    intro s x
    constructor
    · intro h
      rcases List.mem_cons.mp h with h | h
      · exact ⟨s, le_rfl, by omega, h.symm⟩
      · rcases (ih (s + 1) x).mp h with ⟨i, h1, h2, h3⟩
        exact ⟨i, by omega, by omega, h3⟩
    · rintro ⟨i, h1, h2, h3⟩
      rcases Nat.eq_or_lt_of_le h1 with h | h
      · exact List.mem_cons.mpr (Or.inl (h ▸ h3.symm))
      · exact List.mem_cons.mpr (Or.inr ((ih (s + 1) x).mpr ⟨i, by omega, by omega, h3⟩))

theorem windowGo_congr (f g : Nat → α) :
    ∀ n s, (∀ i, s ≤ i → i < s + n → f i = g i) → windowGo n f s = windowGo n g s := by
  intro n
  induction n with
  | zero => intro s _; rfl
  | succ k ih =>
    intro s hag
    show f s :: _ = g s :: _
    rw [hag s le_rfl (by omega), ih (s + 1) (fun i h1 h2 => hag i (by omega) (by omega))]

theorem window_length (f : Nat → α) (s e : Nat) : (window f s e).length = e - s :=
  windowGo_length f (e - s) s

theorem window_nil (f : Nat → α) (s e : Nat) (h : e ≤ s) : window f s e = [] := by
  unfold window
  rw [Nat.sub_eq_zero_of_le h]
  rfl

theorem window_cons (f : Nat → α) (s e : Nat) (h : s < e) :
    window f s e = f s :: window f (s + 1) e := by
  unfold window
  have harith : e - s = (e - (s + 1)) + 1 := by omega
  rw [harith]
  rfl

theorem window_split (f : Nat → α) (s m e : Nat) (h1 : s ≤ m) (h2 : m ≤ e) :
    window f s e = window f s m ++ window f m e := by
  unfold window
  have harith : e - s = (m - s) + (e - m) := by omega
  rw [harith, windowGo_append]
  have harith2 : s + (m - s) = m := by omega
  rw [harith2]

theorem mem_window (f : Nat → α) (s e : Nat) (x : α) :
    x ∈ window f s e ↔ ∃ i, s ≤ i ∧ i < e ∧ f i = x := by
  unfold window
  rw [mem_windowGo]
  constructor
  · rintro ⟨i, h1, h2, h3⟩; exact ⟨i, h1, by omega, h3⟩
  · rintro ⟨i, h1, h2, h3⟩; exact ⟨i, h1, by omega, h3⟩

theorem window_congr (f g : Nat → α) (s e : Nat) (h : Agree f g s e) :
    window f s e = window g s e :=
  windowGo_congr f g (e - s) s (fun i h1 h2 => h i h1 (by omega))

theorem window_eq_pointwise (f g : Nat → α) :
    ∀ n s, windowGo n f s = windowGo n g s → ∀ i, s ≤ i → i < s + n → f i = g i := by
  intro n
  induction n with
  | zero => intro s _ i h1 h2; omega
  | succ k ih =>
    intro s heq i h1 h2
    have hcons : f s :: windowGo k f (s + 1) = g s :: windowGo k g (s + 1) := heq
    rcases Nat.eq_or_lt_of_le h1 with h | h
    · subst h; exact (List.cons.injEq _ _ _ _ ▸ hcons).1
    · exact ih (s + 1) (List.tail_eq_of_cons_eq hcons) i (by omega) (by omega)

theorem writeBack_lt : ∀ (l : List α) (f : Nat → α) (s i : Nat), i < s →
    writeBack f s l i = f i := by
  intro l
  induction l with
  | nil => intro f s i _; rfl
  | cons v t ih =>
    intro f s i h
    show writeBack (upd f s v) (s + 1) t i = f i
    rw [ih _ _ _ (by omega), upd_other _ _ _ _ (by omega)]

theorem writeBack_ge : ∀ (l : List α) (f : Nat → α) (s i : Nat), s + l.length ≤ i →
    writeBack f s l i = f i := by
  intro l
  induction l with
  | nil => intro f s i _; rfl
  | cons v t ih =>
    intro f s i h
    simp only [List.length_cons] at h
    show writeBack (upd f s v) (s + 1) t i = f i
    rw [ih _ _ _ (by omega), upd_other _ _ _ _ (by omega)]

theorem window_writeBack : ∀ (l : List α) (f : Nat → α) (s : Nat),
    window (writeBack f s l) s (s + l.length) = l := by
  intro l
  induction l with
  | nil => intro f s; exact window_nil _ _ _ (by simp)
  | cons v t ih =>
    intro f s
    have hwb : writeBack f s (v :: t) = writeBack (upd f s v) (s + 1) t := rfl
    rw [window_cons _ _ _ (by simp only [List.length_cons]; omega), hwb,
      writeBack_lt _ _ _ _ (by omega), upd_self]
    have harith : s + (v :: t).length = (s + 1) + t.length := by
      simp only [List.length_cons]; omega
    rw [harith, ih (upd f s v) (s + 1)]

theorem writeBack_congr : ∀ (l : List α) (f g : Nat → α) (s i : Nat),
    s ≤ i → i < s + l.length → writeBack f s l i = writeBack g s l i := by
  intro l
  induction l with
  | nil => intro f g s i h1 h2; simp at h2; omega
  | cons v t ih =>
    intro f g s i h1 h2
    simp only [List.length_cons] at h2
    show writeBack (upd f s v) (s + 1) t i = writeBack (upd g s v) (s + 1) t i
    rcases Nat.eq_or_lt_of_le h1 with h | h
    · subst h
      rw [writeBack_lt _ _ _ _ (by omega), writeBack_lt _ _ _ _ (by omega),
        upd_self, upd_self]
    · exact ih _ _ _ _ (by omega) (by omega)

/-! Contract of the modelled baseline sort. -/

theorem sortRange_frame (f : Nat → α) (s e i : Nat) (h : i < s ∨ e ≤ i) :
    sortRange f s e i = f i := by
  unfold sortRange
  have hlen : (List.insertionSort (· ≤ ·) (window f s e)).length = e - s := by
    rw [(List.perm_insertionSort (· ≤ ·) (window f s e)).length_eq, window_length]
  rcases h with h | h
  · exact writeBack_lt _ _ _ _ h
  · rcases le_or_lt s e with hse | hse
    · exact writeBack_ge _ _ _ _ (by omega)
    · have hnil : List.insertionSort (· ≤ ·) (window f s e) = [] :=
        List.eq_nil_of_length_eq_zero (by omega)
      rw [hnil]
      rfl

theorem window_sortRange (f : Nat → α) (s e : Nat) (h : s ≤ e) :
    window (sortRange f s e) s e = List.insertionSort (· ≤ ·) (window f s e) := by
  unfold sortRange
  generalize hL : List.insertionSort (· ≤ ·) (window f s e) = L
  have hlen : L.length = e - s := by
    rw [← hL, (List.perm_insertionSort (· ≤ ·) (window f s e)).length_eq, window_length]
  have harith : e = s + L.length := by omega
  rw [harith, window_writeBack]

theorem sortRange_sorted (f : Nat → α) (s e : Nat) :
    (window (sortRange f s e) s e).Sorted (· ≤ ·) := by
  rcases le_or_lt s e with h | h
  · rw [window_sortRange f s e h]
    exact List.sorted_insertionSort (· ≤ ·) _
  · rw [window_nil _ _ _ (by omega)]
    exact List.sorted_nil

theorem sortRange_perm (f : Nat → α) (s e : Nat) :
    (window (sortRange f s e) s e).Perm (window f s e) := by
  rcases le_or_lt s e with h | h
  · rw [window_sortRange f s e h]
    exact List.perm_insertionSort (· ≤ ·) _
  · rw [window_nil _ _ _ (by omega), window_nil _ _ _ (by omega)]

theorem sortRange_congr (f g : Nat → α) (s e : Nat) (h : Agree f g s e) :
    Agree (sortRange f s e) (sortRange g s e) s e := by
  intro i h1 h2
  unfold sortRange
  rw [window_congr f g s e h]
  apply writeBack_congr
  · exact h1
  · have hlen : (List.insertionSort (· ≤ ·) (window g s e)).length = e - s := by
      rw [(List.perm_insertionSort (· ≤ ·) (window g s e)).length_eq, window_length]
    omega

/-! Contract of the modelled in-place merge. -/

theorem mergeLGo_perm : ∀ (fuel : Nat) (xs ys : List α), xs.length + ys.length ≤ fuel →
    (mergeLGo fuel xs ys).Perm (xs ++ ys) := by
  intro fuel
  induction fuel with
  | zero => intro xs ys _; exact List.Perm.refl _
  | succ k ih =>
    intro xs ys hlen
    match xs, ys with
    | [], ys => simp [mergeLGo]
    | x :: xs, [] => simp [mergeLGo]
    | x :: xs, y :: ys =>
      show (if x ≤ y then x :: mergeLGo k xs (y :: ys) else y :: mergeLGo k (x :: xs) ys).Perm _
      simp only [List.length_cons] at hlen
      by_cases hxy : x ≤ y
      · rw [if_pos hxy]
        exact ((ih xs (y :: ys) (by simp only [List.length_cons]; omega)).cons x)
      · rw [if_neg hxy]
        have hp : (y :: mergeLGo k (x :: xs) ys).Perm (y :: ((x :: xs) ++ ys)) :=
          (ih (x :: xs) ys (by simp only [List.length_cons]; omega)).cons y
        exact hp.trans (List.perm_middle.symm)

theorem mergeLGo_sorted : ∀ (fuel : Nat) (xs ys : List α), xs.length + ys.length ≤ fuel →
    xs.Sorted (· ≤ ·) → ys.Sorted (· ≤ ·) → (mergeLGo fuel xs ys).Sorted (· ≤ ·) := by
  intro fuel
  induction fuel with
  | zero =>
    intro xs ys hlen _ _
    have hx : xs = [] := List.eq_nil_of_length_eq_zero (by omega)
    have hy : ys = [] := List.eq_nil_of_length_eq_zero (by omega)
    subst hx; subst hy
    exact List.sorted_nil
  | succ k ih =>
    intro xs ys hlen hxs hys
    match xs, ys with
    | [], ys => exact hys
    | x :: xs, [] => exact hxs
    | x :: xs, y :: ys =>
      show (if x ≤ y then x :: mergeLGo k xs (y :: ys) else y :: mergeLGo k (x :: xs) ys).Sorted _
      simp only [List.length_cons] at hlen
      rcases List.sorted_cons.mp hxs with ⟨hxall, hxs'⟩
      rcases List.sorted_cons.mp hys with ⟨hyall, hys'⟩
      by_cases hxy : x ≤ y
      · rw [if_pos hxy]
        apply List.sorted_cons.mpr
        refine ⟨?_, ih xs (y :: ys) (by simp only [List.length_cons]; omega) hxs' hys⟩
        intro b hb
        have hmem := (mergeLGo_perm k xs (y :: ys)
          (by simp only [List.length_cons]; omega)).mem_iff.mp hb
        rcases List.mem_append.mp hmem with hm | hm
        · exact hxall b hm
        · rcases List.mem_cons.mp hm with hm | hm
          · exact hm ▸ hxy
          · exact le_trans hxy (hyall b hm)
      · rw [if_neg hxy]
        apply List.sorted_cons.mpr
        refine ⟨?_, ih (x :: xs) ys (by simp only [List.length_cons]; omega) hxs hys'⟩
        intro b hb
        have hmem := (mergeLGo_perm k (x :: xs) ys
          (by simp only [List.length_cons]; omega)).mem_iff.mp hb
        have hyx : y ≤ x := le_of_not_le hxy
        rcases List.mem_append.mp hmem with hm | hm
        · rcases List.mem_cons.mp hm with hm | hm
          · exact hm ▸ hyx
          · exact le_trans hyx (hxall b hm)
        · exact hyall b hm

theorem mergeL_perm (xs ys : List α) : (mergeL xs ys).Perm (xs ++ ys) :=
  mergeLGo_perm _ xs ys le_rfl

theorem mergeL_sorted (xs ys : List α) (h1 : xs.Sorted (· ≤ ·)) (h2 : ys.Sorted (· ≤ ·)) :
    (mergeL xs ys).Sorted (· ≤ ·) :=
  mergeLGo_sorted _ xs ys le_rfl h1 h2

theorem mergeL_length (xs ys : List α) : (mergeL xs ys).length = xs.length + ys.length := by
  rw [(mergeL_perm xs ys).length_eq, List.length_append]

theorem mergeRange_frame (f : Nat → α) (s m e i : Nat) (hsm : s ≤ m) (hme : m ≤ e)
    (h : i < s ∨ e ≤ i) : mergeRange f s m e i = f i := by
  unfold mergeRange
  rcases h with h | h
  · exact writeBack_lt _ _ _ _ h
  · apply writeBack_ge
    rw [mergeL_length, window_length, window_length]
    omega

theorem window_mergeRange (f : Nat → α) (s m e : Nat) (hsm : s ≤ m) (hme : m ≤ e) :
    window (mergeRange f s m e) s e = mergeL (window f s m) (window f m e) := by
  unfold mergeRange
  generalize hL : mergeL (window f s m) (window f m e) = L
  have hlen : L.length = e - s := by
    rw [← hL, mergeL_length, window_length, window_length]; omega
  have harith : e = s + L.length := by omega
  rw [harith, window_writeBack]

theorem mergeRange_sorted (f : Nat → α) (s m e : Nat) (hsm : s ≤ m) (hme : m ≤ e)
    (h1 : (window f s m).Sorted (· ≤ ·)) (h2 : (window f m e).Sorted (· ≤ ·)) :
    (window (mergeRange f s m e) s e).Sorted (· ≤ ·) := by
  rw [window_mergeRange f s m e hsm hme]
  exact mergeL_sorted _ _ h1 h2

theorem mergeRange_perm (f : Nat → α) (s m e : Nat) (hsm : s ≤ m) (hme : m ≤ e) :
    (window (mergeRange f s m e) s e).Perm (window f s e) := by
  rw [window_mergeRange f s m e hsm hme, window_split f s m e hsm hme]
  exact mergeL_perm _ _

theorem mergeRange_congr (f g : Nat → α) (s m e : Nat) (hsm : s ≤ m) (hme : m ≤ e)
    (h : Agree f g s e) : Agree (mergeRange f s m e) (mergeRange g s m e) s e := by
  intro i h1 h2
  unfold mergeRange
  have hwl : window f s m = window g s m :=
    window_congr _ _ _ _ (fun j hj1 hj2 => h j hj1 (by omega))
  have hwr : window f m e = window g m e :=
    window_congr _ _ _ _ (fun j hj1 hj2 => h j (by omega) hj2)
  rw [hwl, hwr]
  apply writeBack_congr
  · exact h1
  · rw [mergeL_length, window_length, window_length]; omega

/-! Behaviour of the two merge-based variants. -/

theorem sortRange_empty (f : Nat → α) (s e : Nat) (h : e ≤ s) : sortRange f s e = f :=
  funext fun i => sortRange_frame f s e i (by omega)

theorem mergeMid_bounds (s e : Nat) (h : 2 ≤ e - s) :
    s < mergeMid s e ∧ mergeMid s e < e := by
  unfold mergeMid
  omega

theorem mergeGo_succ (k : Nat) (f : Nat → α) (s e : Nat) :
    mergeGo (k + 1) f s e = if e - s ≤ MAX_PART then sortRange f s e
      else mergeRange (mergeGo k (mergeGo k f s (mergeMid s e)) (mergeMid s e) e)
        s (mergeMid s e) e := rfl

theorem mergeGo_frame : ∀ (fuel : Nat) (f : Nat → α) (s e i : Nat), i < s ∨ e ≤ i →
    mergeGo fuel f s e i = f i := by
  intro fuel
  induction fuel with
  | zero => intro f s e i _; rfl
  | succ k ih =>
    intro f s e i hi
    show (if e - s ≤ MAX_PART then sortRange f s e else _) i = f i
    by_cases hle : e - s ≤ MAX_PART
    · rw [if_pos hle]; exact sortRange_frame f s e i hi
    · rw [if_neg hle]
      have hm := mergeMid_bounds s e (by unfold MAX_PART at hle; omega)
      rw [mergeRange_frame _ _ _ _ _ (by omega) (by omega) hi,
        ih _ _ _ _ (by omega), ih _ _ _ _ (by omega)]

theorem mergeGo_spec : ∀ (fuel : Nat) (f : Nat → α) (s e : Nat), e - s ≤ fuel →
    (window (mergeGo fuel f s e) s e).Sorted (· ≤ ·) ∧
    (window (mergeGo fuel f s e) s e).Perm (window f s e) := by
  intro fuel
  induction fuel with
  | zero =>
    intro f s e hf
    have hnil : window f s e = [] := window_nil f s e (by omega)
    show (window f s e).Sorted (· ≤ ·) ∧ (window f s e).Perm (window f s e)
    rw [hnil]
    exact ⟨List.sorted_nil, List.Perm.refl _⟩
  | succ k ih =>
    intro f s e hf
    rw [mergeGo_succ]
    by_cases hle : e - s ≤ MAX_PART
    · rw [if_pos hle]
      exact ⟨sortRange_sorted f s e, sortRange_perm f s e⟩
    · rw [if_neg hle]
      have hm := mergeMid_bounds s e (by unfold MAX_PART at hle; omega)
      rcases ih f s (mergeMid s e) (by omega) with ⟨hs1, hp1⟩
      rcases ih (mergeGo k f s (mergeMid s e)) (mergeMid s e) e (by omega) with ⟨hs2, hp2⟩
      have hfix1 : window (mergeGo k (mergeGo k f s (mergeMid s e)) (mergeMid s e) e)
          s (mergeMid s e) = window (mergeGo k f s (mergeMid s e)) s (mergeMid s e) :=
        window_congr _ _ _ _ (fun i h1 h2 => mergeGo_frame _ _ _ _ _ (by omega))
      have hfix2 : window (mergeGo k f s (mergeMid s e)) (mergeMid s e) e
          = window f (mergeMid s e) e :=
        window_congr _ _ _ _ (fun i h1 h2 => mergeGo_frame _ _ _ _ _ (by omega))
      constructor
      · exact mergeRange_sorted _ _ _ _ (by omega) (by omega) (hfix1 ▸ hs1) hs2
      · apply (mergeRange_perm _ s (mergeMid s e) e (by omega) (by omega)).trans
        rw [window_split _ s (mergeMid s e) e (by omega) (by omega),
          window_split f s (mergeMid s e) e (by omega) (by omega), hfix1]
        exact List.Perm.append hp1 (hfix2 ▸ hp2)

theorem mergeGo_small (m : Nat) (f : Nat → α) (s e : Nat) (h : e ≤ s) :
    mergeGo m f s e = f := by
  cases m with
  | zero => rfl
  | succ k =>
    show (if e - s ≤ MAX_PART then sortRange f s e else _) = f
    rw [if_pos (by unfold MAX_PART; omega)]
    exact sortRange_empty f s e h

theorem mergeGo_eq : ∀ (n m : Nat) (f : Nat → α) (s e : Nat), e - s ≤ n → e - s ≤ m →
    mergeGo n f s e = mergeGo m f s e := by
  intro n
  induction n with
  | zero => intro m f s e hn hm; rw [mergeGo_small m f s e (by omega)]; rfl
  | succ k ih =>
    intro m f s e hn hm
    cases m with
    | zero => rw [mergeGo_small (k + 1) f s e (by omega)]; rfl
    | succ j =>
      show (if e - s ≤ MAX_PART then sortRange f s e else _)
        = (if e - s ≤ MAX_PART then sortRange f s e else _)
      by_cases hle : e - s ≤ MAX_PART
      · rw [if_pos hle, if_pos hle]
      · rw [if_neg hle, if_neg hle]
        have hm2 := mergeMid_bounds s e (by unfold MAX_PART at hle; omega)
        rw [ih j f s (mergeMid s e) (by omega) (by omega),
          ih j (mergeGo j f s (mergeMid s e)) (mergeMid s e) e (by omega) (by omega)]

theorem amGo_eq_mergeGo : ∀ (fuel : Nat) (f : Nat → α) (s e : Nat),
    amGo fuel f s e = mergeGo fuel f s e := by
  intro fuel
  induction fuel with
  | zero => intro f s e; rfl
  | succ k ih =>
    intro f s e
    show (if e - s ≤ MAX_PART then sortRange f s e else _)
      = (if e - s ≤ MAX_PART then sortRange f s e else _)
    by_cases hle : e - s ≤ MAX_PART
    · rw [if_pos hle, if_pos hle]
    · rw [if_neg hle, if_neg hle, ih f s (mergeMid s e), ih (mergeGo k f s (mergeMid s e))]

theorem mergeGo_congr : ∀ (fuel : Nat) (f g : Nat → α) (s e : Nat), Agree f g s e →
    Agree (mergeGo fuel f s e) (mergeGo fuel g s e) s e := by
  intro fuel
  induction fuel with
  | zero => intro f g s e h; exact h
  | succ k ih =>
    intro f g s e h
    intro i h1 h2
    show (if e - s ≤ MAX_PART then sortRange f s e else _) i
      = (if e - s ≤ MAX_PART then sortRange g s e else _) i
    by_cases hle : e - s ≤ MAX_PART
    · rw [if_pos hle, if_pos hle]
      exact sortRange_congr f g s e h i h1 h2
    · rw [if_neg hle, if_neg hle]
      have hm := mergeMid_bounds s e (by unfold MAX_PART at hle; omega)
      have hin : Agree (mergeGo k f s (mergeMid s e)) (mergeGo k g s (mergeMid s e))
          s (mergeMid s e) := ih f g s (mergeMid s e) (fun j hj1 hj2 => h j hj1 (by omega))
      have hmid : Agree (mergeGo k f s (mergeMid s e)) (mergeGo k g s (mergeMid s e))
          (mergeMid s e) e := by
        intro j hj1 hj2
        rw [mergeGo_frame _ _ _ _ _ (by omega), mergeGo_frame _ _ _ _ _ (by omega)]
        exact h j (by omega) hj2
      have hout : Agree (mergeGo k (mergeGo k f s (mergeMid s e)) (mergeMid s e) e)
          (mergeGo k (mergeGo k g s (mergeMid s e)) (mergeMid s e) e) (mergeMid s e) e :=
        ih _ _ (mergeMid s e) e hmid
      have hall : Agree (mergeGo k (mergeGo k f s (mergeMid s e)) (mergeMid s e) e)
          (mergeGo k (mergeGo k g s (mergeMid s e)) (mergeMid s e) e) s e := by
        intro j hj1 hj2
        rcases lt_or_le j (mergeMid s e) with hj | hj
        · rw [mergeGo_frame k _ (mergeMid s e) e j (Or.inl hj),
            mergeGo_frame k _ (mergeMid s e) e j (Or.inl hj)]
          exact hin j hj1 hj
        · exact hout j hj hj2
      exact mergeRange_congr _ _ s (mergeMid s e) e (by omega) (by omega) hall i h1 h2

/-! Specifications of the three pointer-moving loops. -/

theorem scanEqGo_spec : ∀ (fuel : Nat) (f : Nat → α) (p : α) (h e : Nat),
    e - h ≤ fuel → h ≤ e →
    h ≤ scanEqGo fuel f p h e ∧ scanEqGo fuel f p h e ≤ e ∧
    (∀ i, h ≤ i → i < scanEqGo fuel f p h e → f i = p) ∧
    (scanEqGo fuel f p h e < e → f (scanEqGo fuel f p h e) ≠ p) := by
  intro fuel
  induction fuel with
  | zero =>
    intro f p h e hfu hhe
    have he : h = e := by omega
    show h ≤ h ∧ h ≤ e ∧ (∀ i, h ≤ i → i < h → f i = p) ∧ (h < e → f h ≠ p)
    exact ⟨le_rfl, hhe, fun i h1 h2 => absurd h2 (by omega), fun hlt => absurd hlt (by omega)⟩
  | succ k ih =>
    intro f p h e hfu hhe
    simp only [scanEqGo]
    by_cases hc : h < e ∧ f h = p
    · rw [if_pos hc]
      rcases ih f p (h + 1) e (by omega) (by omega) with ⟨ih1, ih2, ih3, ih4⟩
      refine ⟨by omega, ih2, ?_, ih4⟩
      intro i h1 h2
      rcases Nat.eq_or_lt_of_le h1 with h1 | h1
      · exact h1 ▸ hc.2
      · exact ih3 i (by omega) h2
    · rw [if_neg hc]
      refine ⟨le_rfl, hhe, fun i h1 h2 => absurd h2 (by omega), ?_⟩
      intro hlt
      exact fun heq => hc ⟨hlt, heq⟩

theorem scanEq_spec (f : Nat → α) (p : α) (h e : Nat) (hhe : h ≤ e) :
    h ≤ scanEq f p h e ∧ scanEq f p h e ≤ e ∧
    (∀ i, h ≤ i → i < scanEq f p h e → f i = p) ∧
    (scanEq f p h e < e → f (scanEq f p h e) ≠ p) :=
  scanEqGo_spec (e - h) f p h e le_rfl hhe

theorem advGo_spec : ∀ (fuel : Nat) (f : Nat → α) (p : α) (h t : Nat),
    t - h ≤ fuel → h ≤ t →
    h ≤ advGo fuel f p h t ∧ advGo fuel f p h t ≤ t ∧
    (∀ i, h ≤ i → i < advGo fuel f p h t → f i ≤ p) ∧
    (advGo fuel f p h t < t → ¬ f (advGo fuel f p h t) ≤ p) := by
  intro fuel
  induction fuel with
  | zero =>
    intro f p h t hfu hht
    show h ≤ h ∧ h ≤ t ∧ (∀ i, h ≤ i → i < h → f i ≤ p) ∧ (h < t → ¬ f h ≤ p)
    exact ⟨le_rfl, hht, fun i h1 h2 => absurd h2 (by omega), fun hlt => absurd hlt (by omega)⟩
  | succ k ih =>
    intro f p h t hfu hht
    simp only [advGo]
    by_cases hc : h < t ∧ f h ≤ p
    · rw [if_pos hc]
      rcases ih f p (h + 1) t (by omega) (by omega) with ⟨ih1, ih2, ih3, ih4⟩
      refine ⟨by omega, ih2, ?_, ih4⟩
      intro i h1 h2
      rcases Nat.eq_or_lt_of_le h1 with h1 | h1
      · exact h1 ▸ hc.2
      · exact ih3 i (by omega) h2
    · rw [if_neg hc]
      exact ⟨le_rfl, hht, fun i h1 h2 => absurd h2 (by omega),
        fun hlt hle => hc ⟨hlt, hle⟩⟩

theorem adv_spec (f : Nat → α) (p : α) (h t : Nat) (hht : h ≤ t) :
    h ≤ adv f p h t ∧ adv f p h t ≤ t ∧
    (∀ i, h ≤ i → i < adv f p h t → f i ≤ p) ∧
    (adv f p h t < t → p < f (adv f p h t)) := by
  rcases advGo_spec (t - h) f p h t le_rfl hht with ⟨h1, h2, h3, h4⟩
  exact ⟨h1, h2, h3, fun hlt => lt_of_not_le (h4 hlt)⟩

theorem retGo_spec : ∀ (fuel : Nat) (f : Nat → α) (p : α) (h t : Nat),
    t - h ≤ fuel → h ≤ t →
    h ≤ retGo fuel f p h t ∧ retGo fuel f p h t ≤ t ∧
    (∀ i, retGo fuel f p h t < i → i ≤ t → p < f i) ∧
    (h < retGo fuel f p h t → f (retGo fuel f p h t) ≤ p) := by
  intro fuel
  induction fuel with
  | zero =>
    intro f p h t hfu hht
    show h ≤ t ∧ t ≤ t ∧ (∀ i, t < i → i ≤ t → p < f i) ∧ (h < t → f t ≤ p)
    exact ⟨hht, le_rfl, fun i h1 h2 => absurd h2 (by omega), fun hlt => absurd hlt (by omega)⟩
  | succ k ih =>
    intro f p h t hfu hht
    simp only [retGo]
    by_cases hc : h < t ∧ p < f t
    · rw [if_pos hc]
      rcases ih f p h (t - 1) (by omega) (by omega) with ⟨ih1, ih2, ih3, ih4⟩
      refine ⟨ih1, by omega, ?_, ih4⟩
      intro i h1 h2
      rcases Nat.eq_or_lt_of_le h2 with h2 | h2
      · exact h2 ▸ hc.2
      · exact ih3 i h1 (by omega)
    · rw [if_neg hc]
      refine ⟨hht, le_rfl, fun i h1 h2 => absurd h2 (by omega), ?_⟩
      intro hlt
      rcases le_or_lt (f t) p with hle | hgt
      · exact hle
      · exact absurd ⟨hlt, hgt⟩ hc

theorem ret_spec (f : Nat → α) (p : α) (h t : Nat) (hht : h ≤ t) :
    h ≤ ret f p h t ∧ ret f p h t ≤ t ∧
    (∀ i, ret f p h t < i → i ≤ t → p < f i) ∧
    (h < ret f p h t → f (ret f p h t) ≤ p) :=
  retGo_spec (t - h) f p h t le_rfl hht

/-! Permutation facts for windows under swaps. -/

theorem perm_cons_middle_swap (a b : α) (l₂ l₃ : List α) :
    (a :: (l₂ ++ b :: l₃)).Perm (b :: (l₂ ++ a :: l₃)) := by
  have h1 : (a :: (l₂ ++ b :: l₃)).Perm (a :: (b :: (l₂ ++ l₃))) :=
    List.Perm.cons a List.perm_middle
  have h2 : (a :: (b :: (l₂ ++ l₃))).Perm (b :: (a :: (l₂ ++ l₃))) :=
    List.Perm.swap b a (l₂ ++ l₃)
  have h3 : (b :: (a :: (l₂ ++ l₃))).Perm (b :: (l₂ ++ a :: l₃)) :=
    List.Perm.cons b List.perm_middle.symm
  exact (h1.trans h2).trans h3

theorem window_swapf_perm (f : Nat → α) (a b i j : Nat)
    (hai : a ≤ i) (hij : i < j) (hjb : j < b) :
    (window (swapf f i j) a b).Perm (window f a b) := by
  have hdec : ∀ (g : Nat → α), window g a b
      = window g a i ++ g i :: (window g (i + 1) j ++ g j :: window g (j + 1) b) := by
    intro g
    rw [window_split g a i b (by omega) (by omega), window_cons g i b (by omega),
      window_split g (i + 1) j b (by omega) (by omega), window_cons g j b (by omega)]
  rw [hdec (swapf f i j), hdec f]
  have h1 : window (swapf f i j) a i = window f a i :=
    window_congr _ _ _ _ (fun k hk1 hk2 => swapf_other f i j k (by omega) (by omega))
  have h2 : window (swapf f i j) (i + 1) j = window f (i + 1) j :=
    window_congr _ _ _ _ (fun k hk1 hk2 => swapf_other f i j k (by omega) (by omega))
  have h3 : window (swapf f i j) (j + 1) b = window f (j + 1) b :=
    window_congr _ _ _ _ (fun k hk1 hk2 => swapf_other f i j k (by omega) (by omega))
  rw [h1, h2, h3, swapf_fst, swapf_snd]
  exact List.Perm.append_left _ (perm_cons_middle_swap (f j) (f i) _ _)

theorem permExtend (f' f : Nat → α) (c a b d : Nat) (hca : c ≤ a) (hab : a ≤ b) (hbd : b ≤ d)
    (hag : ∀ i, i < a ∨ b ≤ i → f' i = f i)
    (hperm : (window f' a b).Perm (window f a b)) :
    (window f' c d).Perm (window f c d) := by
  rw [window_split f' c a d (by omega) (by omega), window_split f' a b d (by omega) (by omega),
    window_split f c a d (by omega) (by omega), window_split f a b d (by omega) (by omega)]
  have h1 : window f' c a = window f c a :=
    window_congr _ _ _ _ (fun k hk1 hk2 => hag k (Or.inl hk2))
  have h3 : window f' b d = window f b d :=
    window_congr _ _ _ _ (fun k hk1 hk2 => hag k (Or.inr hk1))
  rw [h1, h3]
  exact List.Perm.append_left _ (hperm.append_right _)

/-! Behaviour of the exchange loop. -/

theorem partLoopGo_succ (k : Nat) (f : Nat → α) (p : α) (h t : Nat) :
    partLoopGo (k + 1) f p h t = if h < t then
      (if ret f p (adv f p h t) t ≤ adv f p h t then (f, adv f p h t, ret f p (adv f p h t) t)
       else partLoopGo k (swapf f (adv f p h t) (ret f p (adv f p h t) t)) p
         (adv f p h t + 1) (ret f p (adv f p h t) t - 1))
    else (f, h, t) := rfl

theorem partLoopGo_stuck (fuel : Nat) (f : Nat → α) (p : α) (h t : Nat) (hht : t ≤ h) :
    partLoopGo fuel f p h t = (f, h, t) := by
  cases fuel with
  | zero => rfl
  | succ k => rw [partLoopGo_succ, if_neg (by omega)]

theorem partLoopGo_frame : ∀ (fuel : Nat) (f : Nat → α) (p : α) (h t i : Nat),
    i < h ∨ t < i → (partLoopGo fuel f p h t).1 i = f i := by
  intro fuel
  induction fuel with
  | zero => intro f p h t i _; rfl
  | succ k ih =>
    intro f p h t i hi
    rw [partLoopGo_succ]
    by_cases hlt : h < t
    · rw [if_pos hlt]
      obtain ⟨ha1, ha2, ha3, ha4⟩ := adv_spec f p h t (le_of_lt hlt)
      obtain ⟨hr1, hr2, hr3, hr4⟩ := ret_spec f p (adv f p h t) t ha2
      by_cases hbr : ret f p (adv f p h t) t ≤ adv f p h t
      · rw [if_pos hbr]
      · rw [if_neg hbr]
        have har : adv f p h t < ret f p (adv f p h t) t := by omega
        rw [ih _ p _ _ i (by omega)]
        exact swapf_other f _ _ i (by omega) (by omega)
    · rw [if_neg hlt]

theorem partLoopGo_spec (s e : Nat) (p : α) : ∀ (fuel : Nat) (f : Nat → α) (h t : Nat),
    t - h ≤ fuel → h ≤ t → t < e →
    (∀ i, s ≤ i → i < h → f i ≤ p) →
    (∀ i, t < i → i < e → p < f i) →
    (∀ i, s ≤ i → i < (partLoopGo fuel f p h t).2.1 → (partLoopGo fuel f p h t).1 i ≤ p) ∧
    (∀ i, (partLoopGo fuel f p h t).2.2 < i → i < e → p < (partLoopGo fuel f p h t).1 i) ∧
    (partLoopGo fuel f p h t).2.2 ≤ (partLoopGo fuel f p h t).2.1 ∧
    (partLoopGo fuel f p h t).2.1 ≤ (partLoopGo fuel f p h t).2.2 + 1 ∧
    ((partLoopGo fuel f p h t).2.1 = (partLoopGo fuel f p h t).2.2 + 1 →
      (partLoopGo fuel f p h t).2.2 < t) ∧
    h ≤ (partLoopGo fuel f p h t).2.1 ∧
    (partLoopGo fuel f p h t).2.2 ≤ t ∧
    (∀ i, i < h ∨ t < i → (partLoopGo fuel f p h t).1 i = f i) ∧
    (window (partLoopGo fuel f p h t).1 h (t + 1)).Perm (window f h (t + 1)) := by
  intro fuel
  induction fuel with
  | zero =>
    intro f h t hfu hht hte hI1 hI2
    have het : h = t := by omega
    dsimp only [partLoopGo]
    exact ⟨hI1, hI2, by omega, by omega, fun hx => by omega, le_rfl, le_rfl,
      fun i _ => rfl, List.Perm.refl _⟩
  | succ k ih =>
    intro f h t hfu hht hte hI1 hI2
    rw [partLoopGo_succ]
    by_cases hlt : h < t
    · rw [if_pos hlt]
      obtain ⟨ha1, ha2, ha3, ha4⟩ := adv_spec f p h t (le_of_lt hlt)
      obtain ⟨hr1, hr2, hr3, hr4⟩ := ret_spec f p (adv f p h t) t ha2
      set a := adv f p h t with haDef
      set r := ret f p a t with hrDef
      by_cases hbr : r ≤ a
      · rw [if_pos hbr]
        have har : r = a := by omega
        dsimp only
        refine ⟨?_, ?_, by omega, by omega, fun hx => by omega, ha1, hr2,
          fun i _ => rfl, List.Perm.refl _⟩
        · intro i hi1 hi2
          rcases lt_or_le i h with hih | hih
          · exact hI1 i hi1 hih
          · exact ha3 i hih hi2
        · intro i hi1 hi2
          rcases le_or_lt i t with hit | hit
          · exact hr3 i hi1 hit
          · exact hI2 i hit hi2
      · rw [if_neg hbr]
        have har : a < r := by omega
        have hat : a < t := by omega
        have hfa : p < f a := ha4 hat
        have hfr : f r ≤ p := hr4 (by omega)
        have hI1g : ∀ i, s ≤ i → i < a + 1 → swapf f a r i ≤ p := by
          intro i hi1 hi2
          rcases Nat.lt_or_ge i a with hia | hia
          · rw [swapf_other f a r i (by omega) (by omega)]
            rcases lt_or_le i h with hih | hih
            · exact hI1 i hi1 hih
            · exact ha3 i hih hia
          · have hia2 : i = a := by omega
            rw [hia2, swapf_fst]
            exact hfr
        have hI2g : ∀ i, r - 1 < i → i < e → p < swapf f a r i := by
          intro i hi1 hi2
          rcases Nat.lt_or_ge i (r + 1) with hir | hir
          · have hir2 : i = r := by omega
            rw [hir2, swapf_snd]
            exact hfa
          · rw [swapf_other f a r i (by omega) (by omega)]
            rcases le_or_lt i t with hit | hit
            · exact hr3 i (by omega) hit
            · exact hI2 i hit hi2
        by_cases hsm : a + 1 ≤ r - 1
        · obtain ⟨j1, j2, j3, j4, j5, j6, j7, j8, j9⟩ :=
            ih (swapf f a r) (a + 1) (r - 1) (by omega) hsm (by omega) hI1g hI2g
          refine ⟨j1, j2, j3, j4, ?_, by
              have := j6; omega, by
              have := j7; omega, ?_, ?_⟩
          · intro hEq
            have := j5 hEq
            omega
          · intro i hi
            rw [j8 i (by omega)]
            exact swapf_other f a r i (by omega) (by omega)
          · have hr1p : r - 1 + 1 = r := by omega
            rw [hr1p] at j9
            have hperm1 : (window (partLoopGo k (swapf f a r) p (a + 1) (r - 1)).1
                h (t + 1)).Perm (window (swapf f a r) h (t + 1)) :=
              permExtend _ _ h (a + 1) r (t + 1) (by omega) (by omega) (by omega)
                (fun i hi => j8 i (by omega)) j9
            exact hperm1.trans (window_swapf_perm f h (t + 1) a r ha1 har (by omega))
        · have hra : r = a + 1 := by omega
          rw [partLoopGo_stuck k _ p (a + 1) (r - 1) (by omega)]
          dsimp only
          refine ⟨?_, ?_, by omega, by omega, fun hx => by omega, by omega, by omega, ?_, ?_⟩
          · intro i hi1 hi2
            exact hI1g i hi1 hi2
          · intro i hi1 hi2
            exact hI2g i hi1 hi2
          · intro i hi
            exact swapf_other f a r i (by omega) (by omega)
          · exact window_swapf_perm f h (t + 1) a r ha1 har (by omega)
    · rw [if_neg hlt]
      have het : h = t := by omega
      dsimp only
      exact ⟨hI1, hI2, by omega, by omega, fun hx => by omega, le_rfl, le_rfl,
        fun i _ => rfl, List.Perm.refl _⟩

/-! Behaviour of the whole partition phase (exchange loop plus the final
head adjustment), shared by both quicksort variants. -/

theorem partBump_spec (f : Nat → α) (p : α) (s e h1 h3 : Nat)
    (hse : 2 ≤ e - s) (hh1s : s ≤ h1) (hh1t : h1 ≤ e - 1)
    (hI1 : ∀ i, s ≤ i → i < h1 → f i ≤ p)
    (hh3 : h3 = if (partLoop f p h1 (e - 1)).1 (partLoop f p h1 (e - 1)).2.1 ≤ p
      then (partLoop f p h1 (e - 1)).2.1 + 1 else (partLoop f p h1 (e - 1)).2.1) :
    s ≤ h3 ∧ h3 ≤ e ∧
    (∀ i, s ≤ i → i < h3 → (partLoop f p h1 (e - 1)).1 i ≤ p) ∧
    (∀ i, h3 ≤ i → i < e → p < (partLoop f p h1 (e - 1)).1 i) ∧
    (∀ i, i < s ∨ e ≤ i → (partLoop f p h1 (e - 1)).1 i = f i) ∧
    (window (partLoop f p h1 (e - 1)).1 s e).Perm (window f s e) := by
  obtain ⟨j1, j2, j3, j4, j5, j6, j7, j8, j9⟩ :=
    partLoopGo_spec s e p ((e - 1) - h1) f h1 (e - 1) le_rfl hh1t (by omega) hI1
      (fun i hi1 hi2 => False.elim (by omega))
  have hPL : partLoop f p h1 (e - 1) = partLoopGo ((e - 1) - h1) f p h1 (e - 1) := rfl
  rw [hPL] at hh3 ⊢
  have hHe : (partLoopGo ((e - 1) - h1) f p h1 (e - 1)).2.1 < e := by
    rcases Nat.eq_or_lt_of_le j4 with hc | hc
    · have := j5 hc; omega
    · omega
  have hframe : ∀ i, i < s ∨ e ≤ i →
      (partLoopGo ((e - 1) - h1) f p h1 (e - 1)).1 i = f i := by
    intro i hi
    exact j8 i (by omega)
  have hperm : (window (partLoopGo ((e - 1) - h1) f p h1 (e - 1)).1 s e).Perm
      (window f s e) := by
    have he1 : e - 1 + 1 = e := by omega
    rw [he1] at j9
    exact permExtend _ f s h1 e e hh1s (by omega) le_rfl
      (fun i hi => j8 i (by omega)) j9
  by_cases hb : (partLoopGo ((e - 1) - h1) f p h1 (e - 1)).1
      (partLoopGo ((e - 1) - h1) f p h1 (e - 1)).2.1 ≤ p
  · rw [if_pos hb] at hh3
    subst hh3
    refine ⟨by omega, by omega, ?_, ?_, hframe, hperm⟩
    · intro i hi1 hi2
      rcases Nat.lt_or_ge i (partLoopGo ((e - 1) - h1) f p h1 (e - 1)).2.1 with hic | hic
      · exact j1 i hi1 hic
      · have hieq : i = (partLoopGo ((e - 1) - h1) f p h1 (e - 1)).2.1 := by omega
        exact hieq ▸ hb
    · intro i hi1 hi2
      exact j2 i (by omega) hi2
  · rw [if_neg hb] at hh3
    subst hh3
    refine ⟨by omega, by omega, j1, ?_, hframe, hperm⟩
    intro i hi1 hi2
    rcases Nat.eq_or_lt_of_le hi1 with hic | hic
    · exact hic ▸ lt_of_not_le hb
    · exact j2 i (by omega) hi2

theorem headStrict (f2 f : Nat → α) (p : α) (s e h3 : Nat)
    (hperm : (window f2 s e).Perm (window f s e))
    (hle : ∀ i, s ≤ i → i < h3 → f2 i ≤ p)
    (hgt : ∀ i, h3 ≤ i → i < e → p < f2 i)
    (hex1 : ∃ j, s ≤ j ∧ j < e ∧ f j ≤ p)
    (hex2 : ∃ j, s ≤ j ∧ j < e ∧ p < f j) :
    s < h3 ∧ h3 < e := by
  obtain ⟨j, hj1, hj2, hj3⟩ := hex1
  obtain ⟨j', hj1', hj2', hj3'⟩ := hex2
  have hm1 : f j ∈ window f2 s e :=
    hperm.mem_iff.mpr ((mem_window f s e (f j)).mpr ⟨j, hj1, hj2, rfl⟩)
  have hm2 : f j' ∈ window f2 s e :=
    hperm.mem_iff.mpr ((mem_window f s e (f j')).mpr ⟨j', hj1', hj2', rfl⟩)
  obtain ⟨k, hk1, hk2, hk3⟩ := (mem_window f2 s e (f j)).mp hm1
  obtain ⟨k', hk1', hk2', hk3'⟩ := (mem_window f2 s e (f j')).mp hm2
  constructor
  · rcases Nat.lt_or_ge k h3 with hk | hk
    · omega
    · exact absurd (hk3 ▸ hgt k hk hk2) (not_lt.mpr hj3)
  · rcases Nat.lt_or_ge k' h3 with hk | hk
    · exact absurd (hk3' ▸ hle k' hk1' hk) (not_le.mpr hj3')
    · omega

theorem swapf_comm (f : Nat → α) (i j : Nat) : swapf f i j = swapf f j i := by
  funext k
  by_cases hki : k = i
  · subst hki; rw [swapf_fst, swapf_snd]
  · by_cases hkj : k = j
    · subst hkj; rw [swapf_snd, swapf_fst]
    · rw [swapf_other f i j k hki hkj, swapf_other f j i k hkj hki]

theorem qsPart_spec (f : Nat → α) (s e : Nat) (hse : 2 ≤ e - s) (hnu : qsScan f s e ≠ e) :
    s < qsHead f s e ∧ qsHead f s e < e ∧
    (∀ i, s ≤ i → i < qsHead f s e → (qsPart f s e).1 i ≤ (qsPH f s e).1) ∧
    (∀ i, qsHead f s e ≤ i → i < e → (qsPH f s e).1 < (qsPart f s e).1 i) ∧
    (∀ i, i < s ∨ e ≤ i → (qsPart f s e).1 i = f i) ∧
    ((window (qsPart f s e).1 s e).Perm (window f s e)) := by
  obtain ⟨hs1, hs2, hs3, hs4⟩ := scanEq_spec f (qsPivot f s e) s e (by omega)
  have hscan : qsScan f s e = scanEq f (qsPivot f s e) s e := rfl
  rw [← hscan] at hs1 hs2 hs3 hs4
  have hs0e : qsScan f s e < e := lt_of_le_of_ne hs2 hnu
  have hm_ge : s ≤ s + (e - s) / 2 := by omega
  have hm_lt : s + (e - s) / 2 < e := by omega
  unfold qsHead qsPart
  by_cases hA : f (qsScan f s e) < qsPivot f s e
  · have hPH : qsPH f s e = (f (qsScan f s e), s) := by unfold qsPH; rw [if_pos hA]
    rw [hPH]
    dsimp only
    obtain ⟨b1, b2, b3, b4, b5, b6⟩ := partBump_spec f (f (qsScan f s e)) s e s _
      hse le_rfl (by omega) (fun i hi1 hi2 => False.elim (by omega)) rfl
    have hstrict := headStrict _ f (f (qsScan f s e)) s e _ b6 b3 b4
      ⟨qsScan f s e, hs1, hs0e, le_rfl⟩
      ⟨s + (e - s) / 2, hm_ge, hm_lt, hA⟩
    exact ⟨hstrict.1, hstrict.2, b3, b4, b5, b6⟩
  · have hPH : qsPH f s e = (qsPivot f s e, qsScan f s e) := by unfold qsPH; rw [if_neg hA]
    rw [hPH]
    dsimp only
    obtain ⟨b1, b2, b3, b4, b5, b6⟩ := partBump_spec f (qsPivot f s e) s e (qsScan f s e) _
      hse hs1 (by omega) (fun i hi1 hi2 => le_of_eq (hs3 i hi1 hi2)) rfl
    have hstrict := headStrict _ f (qsPivot f s e) s e _ b6 b3 b4
      ⟨s + (e - s) / 2, hm_ge, hm_lt, le_rfl⟩
      ⟨qsScan f s e, hs1, hs0e, lt_of_le_of_ne (not_lt.mp hA) (Ne.symm (hs4 hs0e))⟩
    exact ⟨hstrict.1, hstrict.2, b3, b4, b5, b6⟩

theorem aqsPart_spec (f : Nat → α) (s e : Nat) (hse : 2 ≤ e - s) (hnu : aqsScan f s e ≠ e) :
    s < aqsHead f s e ∧ aqsHead f s e < e ∧
    (∀ i, s ≤ i → i < aqsHead f s e → (aqsPart f s e).1 i ≤ (aqsFPH f s e).2.1) ∧
    (∀ i, aqsHead f s e ≤ i → i < e → (aqsFPH f s e).2.1 < (aqsPart f s e).1 i) ∧
    (∀ i, i < s ∨ e ≤ i → (aqsPart f s e).1 i = f i) ∧
    ((window (aqsPart f s e).1 s e).Perm (window f s e)) := by
  obtain ⟨hs1, hs2, hs3, hs4⟩ := scanEq_spec f (f s) s e (by omega)
  have hscan : aqsScan f s e = scanEq f (f s) s e := rfl
  rw [← hscan] at hs1 hs2 hs3 hs4
  have hs0e : aqsScan f s e < e := lt_of_le_of_ne hs2 hnu
  have h0ne : aqsScan f s e ≠ s := by
    intro hc
    exact (hs4 hs0e) (by rw [hc])
  have h0ge : s + 1 ≤ aqsScan f s e := by omega
  unfold aqsHead aqsPart
  by_cases hA : f (aqsScan f s e) < f s
  · have hF : aqsFPH f s e
        = (swapf f (aqsScan f s e) s, swapf f (aqsScan f s e) s s, s + 1) := by
      unfold aqsFPH; rw [if_pos hA]
    rw [hF]
    dsimp only
    have hgs : swapf f (aqsScan f s e) s s = f (aqsScan f s e) := swapf_snd f _ s
    obtain ⟨b1, b2, b3, b4, b5, b6⟩ := partBump_spec (swapf f (aqsScan f s e) s)
      (swapf f (aqsScan f s e) s s) s e (s + 1) _ hse (by omega) (by omega)
      (fun i hi1 hi2 => by
        have hieq : i = s := by omega
        exact le_of_eq (by rw [hieq])) rfl
    have hstrict := headStrict _ (swapf f (aqsScan f s e) s)
      (swapf f (aqsScan f s e) s s) s e _ b6 b3 b4
      ⟨s, le_rfl, by omega, le_rfl⟩
      ⟨aqsScan f s e, by omega, hs0e, by rw [hgs, swapf_fst]; exact hA⟩
    have hswapperm : (window (swapf f (aqsScan f s e) s) s e).Perm (window f s e) := by
      rw [swapf_comm]
      exact window_swapf_perm f s e s (aqsScan f s e) le_rfl (by omega) hs0e
    refine ⟨hstrict.1, hstrict.2, b3, b4, ?_, b6.trans hswapperm⟩
    intro i hi
    rw [b5 i hi]
    exact swapf_other f _ s i (by omega) (by omega)
  · have hF : aqsFPH f s e = (f, f s, aqsScan f s e) := by
      unfold aqsFPH; rw [if_neg hA]
    rw [hF]
    dsimp only
    obtain ⟨b1, b2, b3, b4, b5, b6⟩ := partBump_spec f (f s) s e (aqsScan f s e) _
      hse hs1 (by omega) (fun i hi1 hi2 => le_of_eq (hs3 i hi1 hi2)) rfl
    have hstrict := headStrict _ f (f s) s e _ b6 b3 b4
      ⟨s, le_rfl, by omega, le_rfl⟩
      ⟨aqsScan f s e, by omega, hs0e, lt_of_le_of_ne (not_lt.mp hA) (Ne.symm (hs4 hs0e))⟩
    exact ⟨hstrict.1, hstrict.2, b3, b4, b5, b6⟩

/-! Behaviour of the two partition-based variants. -/

theorem qsGo_succ (k : Nat) (f : Nat → α) (s e : Nat) :
    qsGo (k + 1) f s e = if e - s < 2 then f
      else if qsScan f s e = e then f
      else qsGo k (qsGo k (qsPart f s e).1 s (qsHead f s e)) (qsHead f s e) e := rfl

theorem qsGo_small (m : Nat) (f : Nat → α) (s e : Nat) (h : e - s < 2) :
    qsGo m f s e = f := by
  cases m with
  | zero => rfl
  | succ k => rw [qsGo_succ, if_pos h]

theorem qsGo_frame : ∀ (fuel : Nat) (f : Nat → α) (s e i : Nat), i < s ∨ e ≤ i →
    qsGo fuel f s e i = f i := by
  intro fuel
  induction fuel with
  | zero => intro f s e i _; rfl
  | succ k ih =>
    intro f s e i hi
    rw [qsGo_succ]
    by_cases h2 : e - s < 2
    · rw [if_pos h2]
    · rw [if_neg h2]
      by_cases huni : qsScan f s e = e
      · rw [if_pos huni]
      · rw [if_neg huni]
        obtain ⟨p1, p2, p3, p4, p5, p6⟩ := qsPart_spec f s e (by omega) huni
        rw [ih _ (qsHead f s e) e i (by omega), ih _ s (qsHead f s e) i (by omega),
          p5 i hi]

theorem window_sorted_small (f : Nat → α) (s e : Nat) (h : e - s ≤ 1) :
    (window f s e).Sorted (· ≤ ·) := by
  rcases Nat.lt_or_ge (e - s) 1 with h1 | h1
  · have h0 : e - s = 0 := by omega
    unfold window
    rw [h0]
    exact List.sorted_nil
  · have h0 : e - s = 1 := by omega
    unfold window
    rw [h0]
    exact List.sorted_singleton _

theorem sorted_of_const (c : α) : ∀ (l : List α), (∀ x ∈ l, x = c) → l.Sorted (· ≤ ·) := by
  intro l
  induction l with
  | nil => intro _; exact List.sorted_nil
  | cons a t ih =>
    intro h
    apply List.sorted_cons.mpr
    refine ⟨?_, ih (fun x hx => h x (List.mem_cons_of_mem a hx))⟩
    intro b hb
    rw [h a (List.mem_cons_self a t), h b (List.mem_cons_of_mem a hb)]

theorem glue_sorted_perm (P1 : Nat → α) (p : α) (gL g : Nat → α) (s H e : Nat)
    (hsH : s ≤ H) (hHe : H ≤ e)
    (p3 : ∀ i, s ≤ i → i < H → P1 i ≤ p)
    (p4 : ∀ i, H ≤ i → i < e → p < P1 i)
    (hLsorted : (window gL s H).Sorted (· ≤ ·))
    (hLperm : (window gL s H).Perm (window P1 s H))
    (hRsorted : (window g H e).Sorted (· ≤ ·))
    (hRperm : (window g H e).Perm (window gL H e))
    (hLframe : ∀ i, i < s ∨ H ≤ i → gL i = P1 i)
    (hRframe : ∀ i, i < H ∨ e ≤ i → g i = gL i) :
    (window g s e).Sorted (· ≤ ·) ∧ (window g s e).Perm (window P1 s e) := by
  have hwL : window g s H = window gL s H :=
    window_congr _ _ _ _ (fun i h1 h2 => hRframe i (by omega))
  have hwR : window gL H e = window P1 H e :=
    window_congr _ _ _ _ (fun i h1 h2 => hLframe i (by omega))
  have hmemL : ∀ x ∈ window g s H, x ≤ p := by
    intro x hx
    rw [hwL] at hx
    obtain ⟨i, hi1, hi2, hi3⟩ := (mem_window P1 s H x).mp (hLperm.mem_iff.mp hx)
    exact hi3 ▸ p3 i hi1 hi2
  have hmemR : ∀ y ∈ window g H e, p < y := by
    intro y hy
    have hy2 := hRperm.mem_iff.mp hy
    rw [hwR] at hy2
    obtain ⟨i, hi1, hi2, hi3⟩ := (mem_window P1 H e y).mp hy2
    exact hi3 ▸ p4 i hi1 hi2
  rw [window_split g s H e hsH hHe]
  constructor
  · apply List.pairwise_append.mpr
    refine ⟨hwL ▸ hLsorted, hRsorted, ?_⟩
    intro x hx y hy
    exact le_trans (hmemL x hx) (le_of_lt (hmemR y hy))
  · rw [window_split P1 s H e hsH hHe]
    exact List.Perm.append (hwL ▸ hLperm) (hRperm.trans (hwR ▸ List.Perm.refl _))

theorem qsGo_spec : ∀ (fuel : Nat) (f : Nat → α) (s e : Nat), e - s ≤ fuel →
    (window (qsGo fuel f s e) s e).Sorted (· ≤ ·) ∧
    (window (qsGo fuel f s e) s e).Perm (window f s e) := by
  intro fuel
  induction fuel with
  | zero =>
    intro f s e hf
    exact ⟨window_sorted_small _ s e (by omega), List.Perm.refl _⟩
  | succ k ih =>
    intro f s e hf
    rw [qsGo_succ]
    by_cases h2 : e - s < 2
    · rw [if_pos h2]
      exact ⟨window_sorted_small f s e (by omega), List.Perm.refl _⟩
    · rw [if_neg h2]
      by_cases huni : qsScan f s e = e
      · rw [if_pos huni]
        obtain ⟨hs1, hs2, hs3, hs4⟩ := scanEq_spec f (qsPivot f s e) s e (by omega)
        have hscan : qsScan f s e = scanEq f (qsPivot f s e) s e := rfl
        rw [← hscan] at hs3
        refine ⟨sorted_of_const (qsPivot f s e) _ ?_, List.Perm.refl _⟩
        intro x hx
        obtain ⟨i, hi1, hi2, hi3⟩ := (mem_window f s e x).mp hx
        exact hi3 ▸ hs3 i hi1 (by omega)
      · rw [if_neg huni]
        obtain ⟨p1, p2, p3, p4, p5, p6⟩ := qsPart_spec f s e (by omega) huni
        obtain ⟨sL, pL⟩ := ih (qsPart f s e).1 s (qsHead f s e) (by omega)
        obtain ⟨sR, pR⟩ := ih (qsGo k (qsPart f s e).1 s (qsHead f s e)) (qsHead f s e) e
          (by omega)
        obtain ⟨hsort, hperm⟩ := glue_sorted_perm (qsPart f s e).1 (qsPH f s e).1
          (qsGo k (qsPart f s e).1 s (qsHead f s e)) _ s (qsHead f s e) e
          (by omega) (by omega) p3 p4 sL pL sR pR
          (fun i hi => qsGo_frame k _ s (qsHead f s e) i hi)
          (fun i hi => qsGo_frame k _ (qsHead f s e) e i hi)
        exact ⟨hsort, hperm.trans p6⟩

theorem qsGo_eq : ∀ (n m : Nat) (f : Nat → α) (s e : Nat), e - s ≤ n → e - s ≤ m →
    qsGo n f s e = qsGo m f s e := by
  intro n
  induction n with
  | zero => intro m f s e hn hm; rw [qsGo_small m f s e (by omega)]; rfl
  | succ k ih =>
    intro m f s e hn hm
    cases m with
    | zero => rw [qsGo_small (k + 1) f s e (by omega)]; rfl
    | succ j =>
      rw [qsGo_succ, qsGo_succ]
      by_cases h2 : e - s < 2
      · rw [if_pos h2, if_pos h2]
      · rw [if_neg h2, if_neg h2]
        by_cases huni : qsScan f s e = e
        · rw [if_pos huni, if_pos huni]
        · rw [if_neg huni, if_neg huni]
          obtain ⟨p1, p2, p3, p4, p5, p6⟩ := qsPart_spec f s e (by omega) huni
          rw [ih j (qsPart f s e).1 s (qsHead f s e) (by omega) (by omega)]
          exact ih j _ (qsHead f s e) e (by omega) (by omega)

theorem quick_sort_spec (f : Nat → α) (s e : Nat) :
    (window (quick_sort f s e) s e).Sorted (· ≤ ·) ∧
    (window (quick_sort f s e) s e).Perm (window f s e) :=
  qsGo_spec (e - s) f s e le_rfl

theorem quick_sort_frame (f : Nat → α) (s e i : Nat) (hi : i < s ∨ e ≤ i) :
    quick_sort f s e i = f i :=
  qsGo_frame (e - s) f s e i hi

theorem aqsGo_succ (k : Nat) (f : Nat → α) (s e : Nat) :
    aqsGo (k + 1) f s e = if e - s < 2 then f
      else if aqsScan f s e = e then f
      else if e - s ≤ MAX_PART then
        quick_sort (quick_sort (aqsPart f s e).1 s (aqsHead f s e)) (aqsHead f s e) e
      else aqsGo k (aqsGo k (aqsPart f s e).1 s (aqsHead f s e)) (aqsHead f s e) e := rfl

theorem aqsGo_small (m : Nat) (f : Nat → α) (s e : Nat) (h : e - s < 2) :
    aqsGo m f s e = f := by
  cases m with
  | zero => rfl
  | succ k => rw [aqsGo_succ, if_pos h]

theorem aqsGo_frame : ∀ (fuel : Nat) (f : Nat → α) (s e i : Nat), i < s ∨ e ≤ i →
    aqsGo fuel f s e i = f i := by
  intro fuel
  induction fuel with
  | zero => intro f s e i _; rfl
  | succ k ih =>
    intro f s e i hi
    rw [aqsGo_succ]
    by_cases h2 : e - s < 2
    · rw [if_pos h2]
    · rw [if_neg h2]
      by_cases huni : aqsScan f s e = e
      · rw [if_pos huni]
      · rw [if_neg huni]
        obtain ⟨p1, p2, p3, p4, p5, p6⟩ := aqsPart_spec f s e (by omega) huni
        by_cases hmp : e - s ≤ MAX_PART
        · rw [if_pos hmp]
          rw [quick_sort_frame _ (aqsHead f s e) e i (by omega),
            quick_sort_frame _ s (aqsHead f s e) i (by omega), p5 i hi]
        · rw [if_neg hmp]
          rw [ih _ (aqsHead f s e) e i (by omega), ih _ s (aqsHead f s e) i (by omega),
            p5 i hi]

theorem aqsGo_spec : ∀ (fuel : Nat) (f : Nat → α) (s e : Nat), e - s ≤ fuel →
    (window (aqsGo fuel f s e) s e).Sorted (· ≤ ·) ∧
    (window (aqsGo fuel f s e) s e).Perm (window f s e) := by
  intro fuel
  induction fuel with
  | zero =>
    intro f s e hf
    exact ⟨window_sorted_small _ s e (by omega), List.Perm.refl _⟩
  | succ k ih =>
    intro f s e hf
    rw [aqsGo_succ]
    by_cases h2 : e - s < 2
    · rw [if_pos h2]
      exact ⟨window_sorted_small f s e (by omega), List.Perm.refl _⟩
    · rw [if_neg h2]
      by_cases huni : aqsScan f s e = e
      · rw [if_pos huni]
        obtain ⟨hs1, hs2, hs3, hs4⟩ := scanEq_spec f (f s) s e (by omega)
        have hscan : aqsScan f s e = scanEq f (f s) s e := rfl
        rw [← hscan] at hs3
        refine ⟨sorted_of_const (f s) _ ?_, List.Perm.refl _⟩
        intro x hx
        obtain ⟨i, hi1, hi2, hi3⟩ := (mem_window f s e x).mp hx
        exact hi3 ▸ hs3 i hi1 (by omega)
      · rw [if_neg huni]
        obtain ⟨p1, p2, p3, p4, p5, p6⟩ := aqsPart_spec f s e (by omega) huni
        by_cases hmp : e - s ≤ MAX_PART
        · rw [if_pos hmp]
          obtain ⟨sL, pL⟩ := quick_sort_spec (aqsPart f s e).1 s (aqsHead f s e)
          obtain ⟨sR, pR⟩ := quick_sort_spec
            (quick_sort (aqsPart f s e).1 s (aqsHead f s e)) (aqsHead f s e) e
          obtain ⟨hsort, hperm⟩ := glue_sorted_perm (aqsPart f s e).1 (aqsFPH f s e).2.1
            (quick_sort (aqsPart f s e).1 s (aqsHead f s e)) _ s (aqsHead f s e) e
            (by omega) (by omega) p3 p4 sL pL sR pR
            (fun i hi => quick_sort_frame _ s (aqsHead f s e) i hi)
            (fun i hi => quick_sort_frame _ (aqsHead f s e) e i hi)
          exact ⟨hsort, hperm.trans p6⟩
        · rw [if_neg hmp]
          obtain ⟨sL, pL⟩ := ih (aqsPart f s e).1 s (aqsHead f s e) (by omega)
          obtain ⟨sR, pR⟩ := ih (aqsGo k (aqsPart f s e).1 s (aqsHead f s e))
            (aqsHead f s e) e (by omega)
          obtain ⟨hsort, hperm⟩ := glue_sorted_perm (aqsPart f s e).1 (aqsFPH f s e).2.1
            (aqsGo k (aqsPart f s e).1 s (aqsHead f s e)) _ s (aqsHead f s e) e
            (by omega) (by omega) p3 p4 sL pL sR pR
            (fun i hi => aqsGo_frame k _ s (aqsHead f s e) i hi)
            (fun i hi => aqsGo_frame k _ (aqsHead f s e) e i hi)
          exact ⟨hsort, hperm.trans p6⟩

theorem aqsGo_eq : ∀ (n m : Nat) (f : Nat → α) (s e : Nat), e - s ≤ n → e - s ≤ m →
    aqsGo n f s e = aqsGo m f s e := by
  intro n
  induction n with
  | zero => intro m f s e hn hm; rw [aqsGo_small m f s e (by omega)]; rfl
  | succ k ih =>
    intro m f s e hn hm
    cases m with
    | zero => rw [aqsGo_small (k + 1) f s e (by omega)]; rfl
    | succ j =>
      rw [aqsGo_succ, aqsGo_succ]
      by_cases h2 : e - s < 2
      · rw [if_pos h2, if_pos h2]
      · rw [if_neg h2, if_neg h2]
        by_cases huni : aqsScan f s e = e
        · rw [if_pos huni, if_pos huni]
        · rw [if_neg huni, if_neg huni]
          by_cases hmp : e - s ≤ MAX_PART
          · rw [if_pos hmp, if_pos hmp]
          · rw [if_neg hmp, if_neg hmp]
            obtain ⟨p1, p2, p3, p4, p5, p6⟩ := aqsPart_spec f s e (by omega) huni
            rw [ih j (aqsPart f s e).1 s (aqsHead f s e) (by omega) (by omega)]
            exact ih j _ (aqsHead f s e) e (by omega) (by omega)

theorem async_quick_sort_spec (f : Nat → α) (s e : Nat) :
    (window (async_quick_sort f s e) s e).Sorted (· ≤ ·) ∧
    (window (async_quick_sort f s e) s e).Perm (window f s e) :=
  aqsGo_spec (e - s) f s e le_rfl

theorem async_quick_sort_frame (f : Nat → α) (s e i : Nat) (hi : i < s ∨ e ≤ i) :
    async_quick_sort f s e i = f i :=
  aqsGo_frame (e - s) f s e i hi

/-! Read-dependency of the loops: each loop reads only its own range. -/

theorem scanEqGo_congr : ∀ (fuel : Nat) (f g : Nat → α) (p : α) (h e : Nat),
    (∀ i, h ≤ i → i < e → f i = g i) →
    scanEqGo fuel f p h e = scanEqGo fuel g p h e := by
  intro fuel
  induction fuel with
  | zero => intro f g p h e _; rfl
  | succ k ih =>
    intro f g p h e hag
    simp only [scanEqGo]
    by_cases hlt : h < e
    · have hfg : f h = g h := hag h le_rfl hlt
      by_cases hc : f h = p
      · rw [if_pos ⟨hlt, hc⟩, if_pos ⟨hlt, by rw [← hfg]; exact hc⟩]
        exact ih f g p (h + 1) e (fun i h1 h2 => hag i (by omega) h2)
      · rw [if_neg (fun hx => hc hx.2), if_neg (fun hx => hc (by rw [hfg]; exact hx.2))]
    · rw [if_neg (fun hx => hlt hx.1), if_neg (fun hx => hlt hx.1)]

theorem advGo_congr : ∀ (fuel : Nat) (f g : Nat → α) (p : α) (h t : Nat),
    (∀ i, h ≤ i → i ≤ t → f i = g i) →
    advGo fuel f p h t = advGo fuel g p h t := by
  intro fuel
  induction fuel with
  | zero => intro f g p h t _; rfl
  | succ k ih =>
    intro f g p h t hag
    simp only [advGo]
    by_cases hlt : h < t
    · have hfg : f h = g h := hag h le_rfl (by omega)
      by_cases hc : f h ≤ p
      · rw [if_pos ⟨hlt, hc⟩, if_pos ⟨hlt, by rw [← hfg]; exact hc⟩]
        exact ih f g p (h + 1) t (fun i h1 h2 => hag i (by omega) h2)
      · rw [if_neg (fun hx => hc hx.2), if_neg (fun hx => hc (by rw [hfg]; exact hx.2))]
    · rw [if_neg (fun hx => hlt hx.1), if_neg (fun hx => hlt hx.1)]

theorem retGo_congr : ∀ (fuel : Nat) (f g : Nat → α) (p : α) (h t : Nat),
    (∀ i, h ≤ i → i ≤ t → f i = g i) →
    retGo fuel f p h t = retGo fuel g p h t := by
  intro fuel
  induction fuel with
  | zero => intro f g p h t _; rfl
  | succ k ih =>
    intro f g p h t hag
    simp only [retGo]
    by_cases hlt : h < t
    · have hfg : f t = g t := hag t (by omega) le_rfl
      by_cases hc : p < f t
      · rw [if_pos ⟨hlt, hc⟩, if_pos ⟨hlt, by rw [← hfg]; exact hc⟩]
        exact ih f g p h (t - 1) (fun i h1 h2 => hag i h1 (by omega))
      · rw [if_neg (fun hx => hc hx.2), if_neg (fun hx => hc (by rw [hfg]; exact hx.2))]
    · rw [if_neg (fun hx => hlt hx.1), if_neg (fun hx => hlt hx.1)]

theorem adv_congr (f g : Nat → α) (p : α) (h t : Nat)
    (hag : ∀ i, h ≤ i → i ≤ t → f i = g i) : adv f p h t = adv g p h t :=
  advGo_congr (t - h) f g p h t hag

theorem ret_congr (f g : Nat → α) (p : α) (h t : Nat)
    (hag : ∀ i, h ≤ i → i ≤ t → f i = g i) : ret f p h t = ret g p h t :=
  retGo_congr (t - h) f g p h t hag

theorem partLoopGo_congr : ∀ (fuel : Nat) (f g : Nat → α) (p : α) (h t : Nat),
    (∀ i, h ≤ i → i ≤ t → f i = g i) →
    (partLoopGo fuel f p h t).2 = (partLoopGo fuel g p h t).2 ∧
    (∀ i, h ≤ i → i ≤ t → (partLoopGo fuel f p h t).1 i = (partLoopGo fuel g p h t).1 i) := by
  intro fuel
  induction fuel with
  | zero => intro f g p h t hag; exact ⟨rfl, hag⟩
  | succ k ih =>
    intro f g p h t hag
    rw [partLoopGo_succ, partLoopGo_succ]
    by_cases hlt : h < t
    · rw [if_pos hlt, if_pos hlt]
      have ha : adv f p h t = adv g p h t := adv_congr f g p h t hag
      have hr : ret f p (adv f p h t) t = ret g p (adv g p h t) t := by
        rw [← ha]
        exact ret_congr f g p (adv f p h t) t
          (fun i h1 h2 => hag i (by
            obtain ⟨ha1, _, _, _⟩ := adv_spec f p h t (le_of_lt hlt)
            omega) h2)
      rw [hr, ha]
      obtain ⟨ha1, ha2, ha3, ha4⟩ := adv_spec g p h t (le_of_lt hlt)
      obtain ⟨hr1, hr2, hr3, hr4⟩ := ret_spec g p (adv g p h t) t ha2
      by_cases hbr : ret g p (adv g p h t) t ≤ adv g p h t
      · rw [if_pos hbr, if_pos hbr]
        exact ⟨rfl, hag⟩
      · rw [if_neg hbr, if_neg hbr]
        have har : adv g p h t < ret g p (adv g p h t) t := by omega
        have hagSwap : ∀ i, adv g p h t + 1 ≤ i → i ≤ ret g p (adv g p h t) t - 1 →
            swapf f (adv g p h t) (ret g p (adv g p h t) t) i
              = swapf g (adv g p h t) (ret g p (adv g p h t) t) i := by
          intro i h1 h2
          rw [swapf_other f _ _ i (by omega) (by omega),
            swapf_other g _ _ i (by omega) (by omega)]
          exact hag i (by omega) (by omega)
        obtain ⟨ihA, ihB⟩ := ih (swapf f (adv g p h t) (ret g p (adv g p h t) t))
          (swapf g (adv g p h t) (ret g p (adv g p h t) t)) p
          (adv g p h t + 1) (ret g p (adv g p h t) t - 1) hagSwap
        refine ⟨ihA, ?_⟩
        intro i h1 h2
        rcases Nat.lt_or_ge i (adv g p h t + 1) with hi1 | hi1
        · rw [partLoopGo_frame k _ p _ _ i (by omega), partLoopGo_frame k _ p _ _ i (by omega)]
          rcases Nat.lt_or_ge i (adv g p h t) with hi2 | hi2
          · rw [swapf_other f _ _ i (by omega) (by omega),
              swapf_other g _ _ i (by omega) (by omega)]
            exact hag i h1 h2
          · have hieq : i = adv g p h t := by omega
            rw [hieq, swapf_fst, swapf_fst]
            exact hag _ (by omega) hr2
        · rcases Nat.lt_or_ge (ret g p (adv g p h t) t - 1) i with hi2 | hi2
          · rw [partLoopGo_frame k _ p _ _ i (by omega), partLoopGo_frame k _ p _ _ i (by omega)]
            rcases Nat.lt_or_ge (ret g p (adv g p h t) t) i with hi3 | hi3
            · rw [swapf_other f _ _ i (by omega) (by omega),
                swapf_other g _ _ i (by omega) (by omega)]
              exact hag i h1 h2
            · have hieq : i = ret g p (adv g p h t) t := by omega
              rw [hieq, swapf_snd, swapf_snd]
              exact hag _ (by omega) (by omega)
          · exact ihB i hi1 hi2
    · rw [if_neg hlt, if_neg hlt]
      exact ⟨rfl, hag⟩

theorem qsPart_congr (f g : Nat → α) (s e : Nat) (hse : 2 ≤ e - s)
    (hnu : qsScan f s e ≠ e) (hAg : Agree f g s e) :
    qsScan f s e = qsScan g s e ∧ qsPH f s e = qsPH g s e ∧
    qsHead f s e = qsHead g s e ∧
    Agree (qsPart f s e).1 (qsPart g s e).1 s e := by
  have hpiv : qsPivot f s e = qsPivot g s e := hAg _ (by omega) (by omega)
  have hscan : qsScan f s e = qsScan g s e := by
    show scanEqGo (e - s) f (qsPivot f s e) s e = scanEqGo (e - s) g (qsPivot g s e) s e
    rw [hpiv]
    exact scanEqGo_congr (e - s) f g (qsPivot g s e) s e (fun i h1 h2 => hAg i h1 h2)
  obtain ⟨hs1, hs2, hs3, hs4⟩ := scanEq_spec f (qsPivot f s e) s e (by omega)
  have hscan0 : qsScan f s e = scanEq f (qsPivot f s e) s e := rfl
  rw [← hscan0] at hs1 hs2 hs3 hs4
  have hs0e : qsScan f s e < e := lt_of_le_of_ne hs2 hnu
  have hfs : f (qsScan f s e) = g (qsScan g s e) := by
    rw [← hscan]
    exact hAg _ hs1 hs0e
  have hPH : qsPH f s e = qsPH g s e := by
    unfold qsPH
    rw [hfs, hpiv, hscan]
  have hHf : qsHead f s e = (if (partLoop f (qsPH g s e).1 (qsPH g s e).2 (e - 1)).1
      (partLoop f (qsPH g s e).1 (qsPH g s e).2 (e - 1)).2.1 ≤ (qsPH g s e).1
      then (partLoop f (qsPH g s e).1 (qsPH g s e).2 (e - 1)).2.1 + 1
      else (partLoop f (qsPH g s e).1 (qsPH g s e).2 (e - 1)).2.1) := by
    unfold qsHead qsPart
    rw [hPH]
  have hBf : (qsPart f s e).1 = (partLoop f (qsPH g s e).1 (qsPH g s e).2 (e - 1)).1 := by
    unfold qsPart
    rw [hPH]
  have hHg : qsHead g s e = (if (partLoop g (qsPH g s e).1 (qsPH g s e).2 (e - 1)).1
      (partLoop g (qsPH g s e).1 (qsPH g s e).2 (e - 1)).2.1 ≤ (qsPH g s e).1
      then (partLoop g (qsPH g s e).1 (qsPH g s e).2 (e - 1)).2.1 + 1
      else (partLoop g (qsPH g s e).1 (qsPH g s e).2 (e - 1)).2.1) := rfl
  have hBg : (qsPart g s e).1 = (partLoop g (qsPH g s e).1 (qsPH g s e).2 (e - 1)).1 := rfl
  -- bounds and invariant for the exchange loop on the f side
  have hh1 : s ≤ (qsPH g s e).2 ∧ (qsPH g s e).2 ≤ e - 1 ∧
      (∀ i, s ≤ i → i < (qsPH g s e).2 → f i ≤ (qsPH g s e).1) := by
    rw [← hPH]
    unfold qsPH
    by_cases hA : f (qsScan f s e) < qsPivot f s e
    · rw [if_pos hA]
      dsimp only
      exact ⟨le_rfl, by omega, fun i hi1 hi2 => False.elim (by omega)⟩
    · rw [if_neg hA]
      dsimp only
      refine ⟨hs1, by omega, ?_⟩
      intro i hi1 hi2
      rw [hs3 i hi1 hi2]
  obtain ⟨j1, j2, j3, j4, j5, j6, j7, j8, j9⟩ :=
    partLoopGo_spec s e (qsPH g s e).1 ((e - 1) - (qsPH g s e).2) f (qsPH g s e).2 (e - 1)
      le_rfl hh1.2.1 (by omega) hh1.2.2 (fun i hi1 hi2 => False.elim (by omega))
  have hPL : partLoop f (qsPH g s e).1 (qsPH g s e).2 (e - 1)
      = partLoopGo ((e - 1) - (qsPH g s e).2) f (qsPH g s e).1 (qsPH g s e).2 (e - 1) := rfl
  have hbound : (partLoop f (qsPH g s e).1 (qsPH g s e).2 (e - 1)).2.1 ≤ e - 1 := by
    rw [hPL]
    rcases Nat.eq_or_lt_of_le j4 with hc | hc
    · have := j5 hc; omega
    · omega
  have hhead1 : (qsPH g s e).2 ≤ (partLoop f (qsPH g s e).1 (qsPH g s e).2 (e - 1)).2.1 := by
    rw [hPL]; exact j6
  obtain ⟨hcA, hcB⟩ := partLoopGo_congr ((e - 1) - (qsPH g s e).2) f g (qsPH g s e).1
    (qsPH g s e).2 (e - 1) (fun i h1 h2 => hAg i (by omega) (by omega))
  have hheads : (partLoop f (qsPH g s e).1 (qsPH g s e).2 (e - 1)).2.1
      = (partLoop g (qsPH g s e).1 (qsPH g s e).2 (e - 1)).2.1 := by
    rw [hPL]
    show (partLoopGo _ f _ _ _).2.1 = _
    rw [hcA]
    rfl
  have hval : (partLoop f (qsPH g s e).1 (qsPH g s e).2 (e - 1)).1
      (partLoop f (qsPH g s e).1 (qsPH g s e).2 (e - 1)).2.1
      = (partLoop g (qsPH g s e).1 (qsPH g s e).2 (e - 1)).1
      (partLoop g (qsPH g s e).1 (qsPH g s e).2 (e - 1)).2.1 := by
    rw [← hheads, hPL]
    exact hcB _ (by rw [hPL] at hhead1; exact hhead1) (by rw [hPL] at hbound; exact hbound)
  refine ⟨hscan, hPH, ?_, ?_⟩
  · rw [hHf, hHg, hval, hheads]
  · intro i hi1 hi2
    rw [hBf, hBg]
    rcases Nat.lt_or_ge i (qsPH g s e).2 with hi3 | hi3
    · rw [hPL]
      show (partLoopGo _ f _ _ _).1 i = (partLoopGo _ g _ _ _).1 i
      rw [partLoopGo_frame _ f _ _ _ i (by omega), partLoopGo_frame _ g _ _ _ i (by omega)]
      exact hAg i hi1 hi2
    · rw [hPL]
      exact hcB i hi3 (by omega)

theorem partBump_congr (f1 g1 : Nat → α) (p : α) (s e h1 : Nat)
    (hse : 2 ≤ e - s) (hh1s : s ≤ h1) (hh1t : h1 ≤ e - 1)
    (hI1 : ∀ i, s ≤ i → i < h1 → f1 i ≤ p)
    (hAg : ∀ i, s ≤ i → i < e → f1 i = g1 i) :
    ((if (partLoop f1 p h1 (e - 1)).1 (partLoop f1 p h1 (e - 1)).2.1 ≤ p
      then (partLoop f1 p h1 (e - 1)).2.1 + 1 else (partLoop f1 p h1 (e - 1)).2.1)
     = (if (partLoop g1 p h1 (e - 1)).1 (partLoop g1 p h1 (e - 1)).2.1 ≤ p
      then (partLoop g1 p h1 (e - 1)).2.1 + 1 else (partLoop g1 p h1 (e - 1)).2.1)) ∧
    Agree (partLoop f1 p h1 (e - 1)).1 (partLoop g1 p h1 (e - 1)).1 s e := by
  obtain ⟨j1, j2, j3, j4, j5, j6, j7, j8, j9⟩ :=
    partLoopGo_spec s e p ((e - 1) - h1) f1 h1 (e - 1)
      le_rfl hh1t (by omega) hI1 (fun i hi1 hi2 => False.elim (by omega))
  have hPL : partLoop f1 p h1 (e - 1) = partLoopGo ((e - 1) - h1) f1 p h1 (e - 1) := rfl
  have hPLg : partLoop g1 p h1 (e - 1) = partLoopGo ((e - 1) - h1) g1 p h1 (e - 1) := rfl
  have hbound : (partLoop f1 p h1 (e - 1)).2.1 ≤ e - 1 := by
    rw [hPL]
    rcases Nat.eq_or_lt_of_le j4 with hc | hc
    · have := j5 hc; omega
    · omega
  have hhead1 : h1 ≤ (partLoop f1 p h1 (e - 1)).2.1 := by
    rw [hPL]; exact j6
  obtain ⟨hcA, hcB⟩ := partLoopGo_congr ((e - 1) - h1) f1 g1 p h1 (e - 1)
    (fun i ha hb => hAg i (by omega) (by omega))
  have hheads : (partLoop f1 p h1 (e - 1)).2.1 = (partLoop g1 p h1 (e - 1)).2.1 := by
    rw [hPL, hPLg]
    rw [hcA]
  have hval : (partLoop f1 p h1 (e - 1)).1 (partLoop f1 p h1 (e - 1)).2.1
      = (partLoop g1 p h1 (e - 1)).1 (partLoop g1 p h1 (e - 1)).2.1 := by
    rw [← hheads, hPL, hPLg]
    exact hcB _ (by rw [hPL] at hhead1; exact hhead1) (by rw [hPL] at hbound; exact hbound)
  constructor
  · rw [hval, hheads]
  · intro i hi1 hi2
    rcases Nat.lt_or_ge i h1 with hi3 | hi3
    · rw [hPL, hPLg]
      rw [partLoopGo_frame _ f1 p _ _ i (by omega), partLoopGo_frame _ g1 p _ _ i (by omega)]
      exact hAg i hi1 hi2
    · rw [hPL, hPLg]
      exact hcB i hi3 (by omega)

theorem aqsPart_congr (f g : Nat → α) (s e : Nat) (hse : 2 ≤ e - s)
    (hnu : aqsScan f s e ≠ e) (hAg : Agree f g s e) :
    aqsScan f s e = aqsScan g s e ∧ (aqsFPH f s e).2.1 = (aqsFPH g s e).2.1 ∧
    (aqsFPH f s e).2.2 = (aqsFPH g s e).2.2 ∧
    aqsHead f s e = aqsHead g s e ∧
    Agree (aqsPart f s e).1 (aqsPart g s e).1 s e := by
  have hps : f s = g s := hAg s le_rfl (by omega)
  have hscan : aqsScan f s e = aqsScan g s e := by
    show scanEqGo (e - s) f (f s) s e = scanEqGo (e - s) g (g s) s e
    rw [hps]
    exact scanEqGo_congr (e - s) f g (g s) s e (fun i h1 h2 => hAg i h1 h2)
  obtain ⟨hs1, hs2, hs3, hs4⟩ := scanEq_spec f (f s) s e (by omega)
  have hscan0 : aqsScan f s e = scanEq f (f s) s e := rfl
  rw [← hscan0] at hs1 hs2 hs3 hs4
  have hs0e : aqsScan f s e < e := lt_of_le_of_ne hs2 hnu
  have h0ne : aqsScan f s e ≠ s := by
    intro hc
    exact (hs4 hs0e) (by rw [hc])
  have h0ge : s + 1 ≤ aqsScan f s e := by omega
  have hfs : f (aqsScan f s e) = g (aqsScan g s e) := by
    rw [← hscan]
    exact hAg _ hs1 hs0e
  by_cases hA : f (aqsScan f s e) < f s
  · have hAg' : g (aqsScan g s e) < g s := by rw [← hfs, ← hps]; exact hA
    have hFf : aqsFPH f s e
        = (swapf f (aqsScan f s e) s, swapf f (aqsScan f s e) s s, s + 1) := by
      unfold aqsFPH; rw [if_pos hA]
    have hFg : aqsFPH g s e
        = (swapf g (aqsScan g s e) s, swapf g (aqsScan g s e) s s, s + 1) := by
      unfold aqsFPH; rw [if_pos hAg']
    have hpeq : swapf f (aqsScan f s e) s s = swapf g (aqsScan g s e) s s := by
      rw [swapf_snd, swapf_snd]
      exact hfs
    have hbufAg : ∀ i, s ≤ i → i < e →
        swapf f (aqsScan f s e) s i = swapf g (aqsScan g s e) s i := by
      intro i hi1 hi2
      rw [← hscan]
      by_cases hc1 : i = aqsScan f s e
      · subst hc1
        rw [swapf_fst, swapf_fst]
        exact hps
      · by_cases hc2 : i = s
        · subst hc2
          rw [swapf_snd, swapf_snd]
          exact hAg _ hs1 hs0e
        · rw [swapf_other f _ _ i hc1 hc2, swapf_other g _ _ i hc1 hc2]
          exact hAg i hi1 hi2
    obtain ⟨hbA, hbB⟩ := partBump_congr (swapf f (aqsScan f s e) s)
      (swapf g (aqsScan g s e) s) (swapf g (aqsScan g s e) s s) s e (s + 1)
      hse (by omega) (by omega)
      (fun i hi1 hi2 => by
        have hieq : i = s := by omega
        subst hieq
        exact le_of_eq (hbufAg i le_rfl (by omega)))
      hbufAg
    have hHf : aqsHead f s e = (if (partLoop (swapf f (aqsScan f s e) s)
        (swapf g (aqsScan g s e) s s) (s + 1) (e - 1)).1
        (partLoop (swapf f (aqsScan f s e) s)
        (swapf g (aqsScan g s e) s s) (s + 1) (e - 1)).2.1
        ≤ swapf g (aqsScan g s e) s s
        then (partLoop (swapf f (aqsScan f s e) s)
          (swapf g (aqsScan g s e) s s) (s + 1) (e - 1)).2.1 + 1
        else (partLoop (swapf f (aqsScan f s e) s)
          (swapf g (aqsScan g s e) s s) (s + 1) (e - 1)).2.1) := by
      unfold aqsHead aqsPart
      rw [hFf]
      dsimp only
      rw [hpeq]
    have hHg : aqsHead g s e = (if (partLoop (swapf g (aqsScan g s e) s)
        (swapf g (aqsScan g s e) s s) (s + 1) (e - 1)).1
        (partLoop (swapf g (aqsScan g s e) s)
        (swapf g (aqsScan g s e) s s) (s + 1) (e - 1)).2.1
        ≤ swapf g (aqsScan g s e) s s
        then (partLoop (swapf g (aqsScan g s e) s)
          (swapf g (aqsScan g s e) s s) (s + 1) (e - 1)).2.1 + 1
        else (partLoop (swapf g (aqsScan g s e) s)
          (swapf g (aqsScan g s e) s s) (s + 1) (e - 1)).2.1) := by
      unfold aqsHead aqsPart
      rw [hFg]
    have hBf : (aqsPart f s e).1 = (partLoop (swapf f (aqsScan f s e) s)
        (swapf g (aqsScan g s e) s s) (s + 1) (e - 1)).1 := by
      unfold aqsPart
      rw [hFf]
      dsimp only
      rw [hpeq]
    have hBg : (aqsPart g s e).1 = (partLoop (swapf g (aqsScan g s e) s)
        (swapf g (aqsScan g s e) s s) (s + 1) (e - 1)).1 := by
      unfold aqsPart
      rw [hFg]
    refine ⟨hscan, ?_, ?_, ?_, ?_⟩
    · rw [hFf, hFg]
      exact hpeq
    · rw [hFf, hFg]
    · rw [hHf, hHg]
      exact hbA
    · intro i hi1 hi2
      rw [hBf, hBg]
      exact hbB i hi1 hi2
  · have hAg' : ¬ g (aqsScan g s e) < g s := by rw [← hfs, ← hps]; exact hA
    have hFf : aqsFPH f s e = (f, f s, aqsScan f s e) := by
      unfold aqsFPH; rw [if_neg hA]
    have hFg : aqsFPH g s e = (g, g s, aqsScan g s e) := by
      unfold aqsFPH; rw [if_neg hAg']
    obtain ⟨hbA, hbB⟩ := partBump_congr f g (f s) s e (aqsScan f s e)
      hse hs1 (by omega)
      (fun i hi1 hi2 => le_of_eq (hs3 i hi1 hi2))
      (fun i hi1 hi2 => hAg i hi1 hi2)
    have hHf : aqsHead f s e = (if (partLoop f (f s) (aqsScan f s e) (e - 1)).1
        (partLoop f (f s) (aqsScan f s e) (e - 1)).2.1 ≤ f s
        then (partLoop f (f s) (aqsScan f s e) (e - 1)).2.1 + 1
        else (partLoop f (f s) (aqsScan f s e) (e - 1)).2.1) := by
      unfold aqsHead aqsPart
      rw [hFf]
    have hHg : aqsHead g s e = (if (partLoop g (f s) (aqsScan f s e) (e - 1)).1
        (partLoop g (f s) (aqsScan f s e) (e - 1)).2.1 ≤ f s
        then (partLoop g (f s) (aqsScan f s e) (e - 1)).2.1 + 1
        else (partLoop g (f s) (aqsScan f s e) (e - 1)).2.1) := by
      unfold aqsHead aqsPart
      rw [hFg]
      dsimp only
      rw [hps, hscan]
    have hBf : (aqsPart f s e).1 = (partLoop f (f s) (aqsScan f s e) (e - 1)).1 := by
      unfold aqsPart
      rw [hFf]
    have hBg : (aqsPart g s e).1 = (partLoop g (f s) (aqsScan f s e) (e - 1)).1 := by
      unfold aqsPart
      rw [hFg]
      dsimp only
      rw [hps, hscan]
    refine ⟨hscan, ?_, ?_, ?_, ?_⟩
    · rw [hFf, hFg]
      exact hps
    · rw [hFf, hFg]
      exact hscan
    · rw [hHf, hHg]
      exact hbA
    · intro i hi1 hi2
      rw [hBf, hBg]
      exact hbB i hi1 hi2

theorem qsGo_congr : ∀ (fuel : Nat) (f g : Nat → α) (s e : Nat), Agree f g s e →
    Agree (qsGo fuel f s e) (qsGo fuel g s e) s e := by
  intro fuel
  induction fuel with
  | zero => intro f g s e hAg; exact hAg
  | succ k ih =>
    intro f g s e hAg
    rw [qsGo_succ, qsGo_succ]
    by_cases h2 : e - s < 2
    · rw [if_pos h2, if_pos h2]
      exact hAg
    · rw [if_neg h2, if_neg h2]
      have hpiv : qsPivot f s e = qsPivot g s e := hAg _ (by omega) (by omega)
      have hscan : qsScan f s e = qsScan g s e := by
        show scanEqGo (e - s) f (qsPivot f s e) s e = scanEqGo (e - s) g (qsPivot g s e) s e
        rw [hpiv]
        exact scanEqGo_congr (e - s) f g (qsPivot g s e) s e (fun i ha hb => hAg i ha hb)
      by_cases huni : qsScan f s e = e
      · rw [if_pos huni, if_pos (hscan ▸ huni)]
        exact hAg
      · rw [if_neg huni, if_neg (hscan ▸ huni)]
        obtain ⟨hc1, hc2, hc3, hc4⟩ := qsPart_congr f g s e (by omega) huni hAg
        obtain ⟨p1, p2, p3, p4, p5, p6⟩ := qsPart_spec f s e (by omega) huni
        rw [← hc3]
        have hinner : Agree (qsGo k (qsPart f s e).1 s (qsHead f s e))
            (qsGo k (qsPart g s e).1 s (qsHead f s e)) s (qsHead f s e) :=
          ih _ _ s (qsHead f s e) (fun i ha hb => hc4 i ha (by omega))
        have hmid : Agree (qsGo k (qsPart f s e).1 s (qsHead f s e))
            (qsGo k (qsPart g s e).1 s (qsHead f s e)) (qsHead f s e) e := by
          intro i ha hb
          rw [qsGo_frame k _ s (qsHead f s e) i (by omega),
            qsGo_frame k _ s (qsHead f s e) i (by omega)]
          exact hc4 i (by omega) hb
        have houter := ih (qsGo k (qsPart f s e).1 s (qsHead f s e))
          (qsGo k (qsPart g s e).1 s (qsHead f s e)) (qsHead f s e) e hmid
        intro i ha hb
        rcases Nat.lt_or_ge i (qsHead f s e) with hi | hi
        · rw [qsGo_frame k _ (qsHead f s e) e i (by omega),
            qsGo_frame k _ (qsHead f s e) e i (by omega)]
          exact hinner i ha hi
        · exact houter i hi hb

theorem quick_sort_congr (f g : Nat → α) (s e : Nat) (hAg : Agree f g s e) :
    Agree (quick_sort f s e) (quick_sort g s e) s e :=
  qsGo_congr (e - s) f g s e hAg

theorem aqsGo_congr : ∀ (fuel : Nat) (f g : Nat → α) (s e : Nat), Agree f g s e →
    Agree (aqsGo fuel f s e) (aqsGo fuel g s e) s e := by
  intro fuel
  induction fuel with
  | zero => intro f g s e hAg; exact hAg
  | succ k ih =>
    intro f g s e hAg
    rw [aqsGo_succ, aqsGo_succ]
    by_cases h2 : e - s < 2
    · rw [if_pos h2, if_pos h2]
      exact hAg
    · rw [if_neg h2, if_neg h2]
      have hps : f s = g s := hAg s le_rfl (by omega)
      have hscan : aqsScan f s e = aqsScan g s e := by
        show scanEqGo (e - s) f (f s) s e = scanEqGo (e - s) g (g s) s e
        rw [hps]
        exact scanEqGo_congr (e - s) f g (g s) s e (fun i ha hb => hAg i ha hb)
      by_cases huni : aqsScan f s e = e
      · have hunig : aqsScan g s e = e := by rw [← hscan]; exact huni
        rw [if_pos huni, if_pos hunig]
        exact hAg
      · have hunig : ¬ aqsScan g s e = e := by rw [← hscan]; exact huni
        rw [if_neg huni, if_neg hunig]
        obtain ⟨hc1, hc2, hc3, hc4, hc5⟩ := aqsPart_congr f g s e (by omega) huni hAg
        obtain ⟨p1, p2, p3, p4, p5, p6⟩ := aqsPart_spec f s e (by omega) huni
        rw [← hc4]
        by_cases hmp : e - s ≤ MAX_PART
        · rw [if_pos hmp, if_pos hmp]
          have hinner : Agree (quick_sort (aqsPart f s e).1 s (aqsHead f s e))
              (quick_sort (aqsPart g s e).1 s (aqsHead f s e)) s (aqsHead f s e) :=
            quick_sort_congr _ _ s (aqsHead f s e) (fun i ha hb => hc5 i ha (by omega))
          have hmid : Agree (quick_sort (aqsPart f s e).1 s (aqsHead f s e))
              (quick_sort (aqsPart g s e).1 s (aqsHead f s e)) (aqsHead f s e) e := by
            intro i ha hb
            rw [quick_sort_frame _ s (aqsHead f s e) i (by omega),
              quick_sort_frame _ s (aqsHead f s e) i (by omega)]
            exact hc5 i (by omega) hb
          have houter := quick_sort_congr (quick_sort (aqsPart f s e).1 s (aqsHead f s e))
            (quick_sort (aqsPart g s e).1 s (aqsHead f s e)) (aqsHead f s e) e hmid
          intro i ha hb
          rcases Nat.lt_or_ge i (aqsHead f s e) with hi | hi
          · rw [quick_sort_frame _ (aqsHead f s e) e i (by omega),
              quick_sort_frame _ (aqsHead f s e) e i (by omega)]
            exact hinner i ha hi
          · exact houter i hi hb
        · rw [if_neg hmp, if_neg hmp]
          have hinner : Agree (aqsGo k (aqsPart f s e).1 s (aqsHead f s e))
              (aqsGo k (aqsPart g s e).1 s (aqsHead f s e)) s (aqsHead f s e) :=
            ih _ _ s (aqsHead f s e) (fun i ha hb => hc5 i ha (by omega))
          have hmid : Agree (aqsGo k (aqsPart f s e).1 s (aqsHead f s e))
              (aqsGo k (aqsPart g s e).1 s (aqsHead f s e)) (aqsHead f s e) e := by
            intro i ha hb
            rw [aqsGo_frame k _ s (aqsHead f s e) i (by omega),
              aqsGo_frame k _ s (aqsHead f s e) i (by omega)]
            exact hc5 i (by omega) hb
          have houter := ih (aqsGo k (aqsPart f s e).1 s (aqsHead f s e))
            (aqsGo k (aqsPart g s e).1 s (aqsHead f s e)) (aqsHead f s e) e hmid
          intro i ha hb
          rcases Nat.lt_or_ge i (aqsHead f s e) with hi | hi
          · rw [aqsGo_frame k _ (aqsHead f s e) e i (by omega),
              aqsGo_frame k _ (aqsHead f s e) e i (by omega)]
            exact hinner i ha hi
          · exact houter i hi hb

/-! Scheduling independence: the two joined subtasks act on disjoint ranges,
so the order in which they touch the shared buffer does not matter. -/

theorem commute_disjoint (F G : (Nat → α) → Nat → α) (a b c d : Nat) (hbc : b ≤ c)
    (hFframe : ∀ f i, i < a ∨ b ≤ i → F f i = f i)
    (hGframe : ∀ f i, i < c ∨ d ≤ i → G f i = f i)
    (hFcongr : ∀ f g, Agree f g a b → Agree (F f) (F g) a b)
    (hGcongr : ∀ f g, Agree f g c d → Agree (G f) (G g) c d)
    (f : Nat → α) (i : Nat) : F (G f) i = G (F f) i := by
  by_cases hi1 : a ≤ i ∧ i < b
  · have h1 : Agree (G f) f a b := fun j hj1 hj2 => hGframe f j (Or.inl (by omega))
    rw [hFcongr (G f) f h1 i hi1.1 hi1.2, hGframe (F f) i (Or.inl (by omega))]
  · by_cases hi2 : c ≤ i ∧ i < d
    · have h1 : Agree (F f) f c d := fun j hj1 hj2 => hFframe f j (Or.inr (by omega))
      rw [hFframe (G f) i (by omega), hGcongr (F f) f h1 i hi2.1 hi2.2]
    · rw [hFframe (G f) i (by omega), hGframe f i (by omega),
        hGframe (F f) i (by omega), hFframe f i (by omega)]

theorem amGo_succ (k : Nat) (f : Nat → α) (s e : Nat) :
    amGo (k + 1) f s e = if e - s ≤ MAX_PART then sortRange f s e
      else mergeRange (amGo k (amGo k f s (mergeMid s e)) (mergeMid s e) e)
        s (mergeMid s e) e := rfl

theorem amGoS_succ (o : Nat → Nat → Bool) (k : Nat) (f : Nat → α) (s e : Nat) :
    amGoS o (k + 1) f s e = if e - s ≤ MAX_PART then sortRange f s e
      else if o s e then
        mergeRange (amGoS o k (amGoS o k f s (mergeMid s e)) (mergeMid s e) e)
          s (mergeMid s e) e
      else
        mergeRange (amGoS o k (amGoS o k f (mergeMid s e) e) s (mergeMid s e))
          s (mergeMid s e) e := rfl

theorem amGoS_eq : ∀ (o : Nat → Nat → Bool) (fuel : Nat) (f : Nat → α) (s e : Nat),
    e - s ≤ fuel → amGoS o fuel f s e = amGo fuel f s e := by
  intro o fuel
  induction fuel with
  | zero => intro f s e _; rfl
  | succ k ih =>
    intro f s e hf
    rw [amGoS_succ, amGo_succ]
    by_cases hle : e - s ≤ MAX_PART
    · rw [if_pos hle, if_pos hle]
    · rw [if_neg hle, if_neg hle]
      have hm := mergeMid_bounds s e (by unfold MAX_PART at hle; omega)
      by_cases ho : o s e
      · rw [if_pos ho, ih f s (mergeMid s e) (by omega),
          ih (amGo k f s (mergeMid s e)) (mergeMid s e) e (by omega)]
      · rw [if_neg ho, ih f (mergeMid s e) e (by omega),
          ih (amGo k f (mergeMid s e) e) s (mergeMid s e) (by omega)]
        have hcomm : ∀ i, amGo k (amGo k f (mergeMid s e) e) s (mergeMid s e) i
            = amGo k (amGo k f s (mergeMid s e)) (mergeMid s e) e i := by
          intro i
          exact commute_disjoint (fun h => amGo k h s (mergeMid s e))
            (fun h => amGo k h (mergeMid s e) e) s (mergeMid s e) (mergeMid s e) e le_rfl
            (fun h i hi => by
              show amGo k h s (mergeMid s e) i = h i
              rw [amGo_eq_mergeGo]
              exact mergeGo_frame k h s _ i hi)
            (fun h i hi => by
              show amGo k h (mergeMid s e) e i = h i
              rw [amGo_eq_mergeGo]
              exact mergeGo_frame k h _ e i hi)
            (fun h h' hAg => by
              intro j hj1 hj2
              show amGo k h s (mergeMid s e) j = amGo k h' s (mergeMid s e) j
              rw [amGo_eq_mergeGo, amGo_eq_mergeGo]
              exact mergeGo_congr k h h' s (mergeMid s e) hAg j hj1 hj2)
            (fun h h' hAg => by
              intro j hj1 hj2
              show amGo k h (mergeMid s e) e j = amGo k h' (mergeMid s e) e j
              rw [amGo_eq_mergeGo, amGo_eq_mergeGo]
              exact mergeGo_congr k h h' (mergeMid s e) e hAg j hj1 hj2)
            f i
        rw [funext hcomm]

theorem aqsGoS_succ (o : Nat → Nat → Bool) (k : Nat) (f : Nat → α) (s e : Nat) :
    aqsGoS o (k + 1) f s e = if e - s < 2 then f
      else if aqsScan f s e = e then f
      else if e - s ≤ MAX_PART then
        quick_sort (quick_sort (aqsPart f s e).1 s (aqsHead f s e)) (aqsHead f s e) e
      else if o s e then
        aqsGoS o k (aqsGoS o k (aqsPart f s e).1 s (aqsHead f s e)) (aqsHead f s e) e
      else
        aqsGoS o k (aqsGoS o k (aqsPart f s e).1 (aqsHead f s e) e) s (aqsHead f s e) := rfl

theorem aqsGoS_eq : ∀ (o : Nat → Nat → Bool) (fuel : Nat) (f : Nat → α) (s e : Nat),
    e - s ≤ fuel → aqsGoS o fuel f s e = aqsGo fuel f s e := by
  intro o fuel
  induction fuel with
  | zero => intro f s e _; rfl
  | succ k ih =>
    intro f s e hf
    rw [aqsGoS_succ, aqsGo_succ]
    by_cases h2 : e - s < 2
    · rw [if_pos h2, if_pos h2]
    · rw [if_neg h2, if_neg h2]
      by_cases huni : aqsScan f s e = e
      · rw [if_pos huni, if_pos huni]
      · rw [if_neg huni, if_neg huni]
        by_cases hmp : e - s ≤ MAX_PART
        · rw [if_pos hmp, if_pos hmp]
        · rw [if_neg hmp, if_neg hmp]
          obtain ⟨p1, p2, p3, p4, p5, p6⟩ := aqsPart_spec f s e (by omega) huni
          by_cases ho : o s e
          · rw [if_pos ho, ih (aqsPart f s e).1 s (aqsHead f s e) (by omega),
              ih (aqsGo k (aqsPart f s e).1 s (aqsHead f s e)) (aqsHead f s e) e (by omega)]
          · rw [if_neg ho, ih (aqsPart f s e).1 (aqsHead f s e) e (by omega),
              ih (aqsGo k (aqsPart f s e).1 (aqsHead f s e) e) s (aqsHead f s e) (by omega)]
            have hcomm : ∀ i, aqsGo k (aqsGo k (aqsPart f s e).1 (aqsHead f s e) e)
                s (aqsHead f s e) i
                = aqsGo k (aqsGo k (aqsPart f s e).1 s (aqsHead f s e)) (aqsHead f s e) e i := by
              intro i
              exact commute_disjoint (fun h => aqsGo k h s (aqsHead f s e))
                (fun h => aqsGo k h (aqsHead f s e) e) s (aqsHead f s e) (aqsHead f s e) e
                le_rfl
                (fun h i hi => aqsGo_frame k h s _ i hi)
                (fun h i hi => aqsGo_frame k h _ e i hi)
                (fun h h' hAg => aqsGo_congr k h h' s (aqsHead f s e) hAg)
                (fun h h' hAg => aqsGo_congr k h h' (aqsHead f s e) e hAg)
                (aqsPart f s e).1 i
            rw [funext hcomm]

/-! Degenerate inputs: uniform ranges and already-sorted ranges. -/

theorem qsScan_uniform (f : Nat → α) (s e : Nat) (c : α) (h2 : 2 ≤ e - s)
    (hu : ∀ j, s ≤ j → j < e → f j = c) : qsScan f s e = e := by
  obtain ⟨hs1, hs2, hs3, hs4⟩ := scanEq_spec f (qsPivot f s e) s e (by omega)
  have hscan0 : qsScan f s e = scanEq f (qsPivot f s e) s e := rfl
  rw [← hscan0] at hs1 hs2 hs3 hs4
  by_contra hne
  have hlt : qsScan f s e < e := by omega
  apply hs4 hlt
  have hpv : qsPivot f s e = c := hu _ (by omega) (by omega)
  rw [hu _ hs1 hlt, hpv]

theorem aqsScan_uniform (f : Nat → α) (s e : Nat) (c : α) (h2 : 2 ≤ e - s)
    (hu : ∀ j, s ≤ j → j < e → f j = c) : aqsScan f s e = e := by
  obtain ⟨hs1, hs2, hs3, hs4⟩ := scanEq_spec f (f s) s e (by omega)
  have hscan0 : aqsScan f s e = scanEq f (f s) s e := rfl
  rw [← hscan0] at hs1 hs2 hs3 hs4
  by_contra hne
  have hlt : aqsScan f s e < e := by omega
  apply hs4 hlt
  rw [hu _ hs1 hlt, hu s le_rfl (by omega)]

theorem qsSplits_small (m : Nat) (f : Nat → α) (s e : Nat) (h : e - s < 2) :
    qsSplitsGo m f s e = 0 := by
  cases m with
  | zero => rfl
  | succ k =>
    show (if e - s < 2 then 0 else _) = 0
    rw [if_pos h]

theorem aqsSplits_small (m : Nat) (f : Nat → α) (s e : Nat) (h : e - s < 2) :
    aqsSplitsGo m f s e = 0 := by
  cases m with
  | zero => rfl
  | succ k =>
    show (if e - s < 2 then 0 else _) = 0
    rw [if_pos h]

theorem quick_sort_uniform (f : Nat → α) (s e : Nat) (c : α)
    (hu : ∀ j, s ≤ j → j < e → f j = c) :
    quick_sort f s e = f ∧ async_quick_sort f s e = f ∧
    quick_sort_splits f s e = 0 ∧ async_quick_sort_splits f s e = 0 := by
  by_cases h2 : e - s < 2
  · exact ⟨qsGo_small (e - s) f s e h2, aqsGo_small (e - s) f s e h2,
      qsSplits_small (e - s) f s e h2, aqsSplits_small (e - s) f s e h2⟩
  · have hq := qsScan_uniform f s e c (by omega) hu
    have ha := aqsScan_uniform f s e c (by omega) hu
    obtain ⟨k, hk⟩ : ∃ k, e - s = k + 1 := ⟨e - s - 1, by omega⟩
    constructor
    · show qsGo (e - s) f s e = f
      rw [hk, qsGo_succ, if_neg (by omega), if_pos hq]
    constructor
    · show aqsGo (e - s) f s e = f
      rw [hk, aqsGo_succ, if_neg (by omega), if_pos ha]
    constructor
    · show qsSplitsGo (e - s) f s e = 0
      rw [hk]
      show (if e - s < 2 then 0 else if qsScan f s e = e then 0 else _) = 0
      rw [if_neg (by omega), if_pos hq]
    · show aqsSplitsGo (e - s) f s e = 0
      rw [hk]
      show (if e - s < 2 then 0 else if aqsScan f s e = e then 0 else _) = 0
      rw [if_neg (by omega), if_pos ha]

theorem sortlike_id (g f : Nat → α) (s e : Nat)
    (hin : (window f s e).Sorted (· ≤ ·))
    (hsorted : (window g s e).Sorted (· ≤ ·))
    (hperm : (window g s e).Perm (window f s e))
    (hframe : ∀ i, i < s ∨ e ≤ i → g i = f i) : ∀ i, g i = f i := by
  have heq : window g s e = window f s e := List.eq_of_perm_of_sorted hperm hsorted hin
  intro i
  by_cases hi : s ≤ i ∧ i < e
  · exact window_eq_pointwise g f (e - s) s heq i hi.1 (by omega)
  · exact hframe i (by omega)

theorem merge_sort_below_threshold (f : Nat → α) (s e : Nat) (hle : e - s ≤ MAX_PART) :
    merge_sort f s e = sortRange f s e ∧ async_merge_sort f s e = sortRange f s e := by
  have hm : merge_sort f s e = sortRange f s e := by
    show mergeGo (e - s) f s e = sortRange f s e
    rcases Nat.eq_zero_or_pos (e - s) with h0 | h0
    · rw [h0]
      show f = sortRange f s e
      rw [sortRange_empty f s e (by omega)]
    · obtain ⟨k, hk⟩ : ∃ k, e - s = k + 1 := ⟨e - s - 1, by omega⟩
      rw [hk, mergeGo_succ, if_pos hle]
  refine ⟨hm, ?_⟩
  show amGo (e - s) f s e = sortRange f s e
  rw [amGo_eq_mergeGo]
  exact hm

/-! Claim theorems. -/

/-- C1: for every finite sequence of totally-ordered elements (including
empty, single-element, all-equal, already-sorted, reverse-sorted and
duplicate-run inputs, all instances of the universally quantified buffer and
range), each of the four sort variants (merge_sort, async_merge_sort,
quick_sort, async_quick_sort) applied to the range leaves the buffer holding
a permutation of the input window that is non-decreasing. -/
theorem sort_variants_sorted_perm (f : Nat → α) (s e : Nat) :
    ((window (merge_sort f s e) s e).Sorted (· ≤ ·) ∧
      (window (merge_sort f s e) s e).Perm (window f s e)) ∧
    ((window (async_merge_sort f s e) s e).Sorted (· ≤ ·) ∧
      (window (async_merge_sort f s e) s e).Perm (window f s e)) ∧
    ((window (quick_sort f s e) s e).Sorted (· ≤ ·) ∧
      (window (quick_sort f s e) s e).Perm (window f s e)) ∧
    ((window (async_quick_sort f s e) s e).Sorted (· ≤ ·) ∧
      (window (async_quick_sort f s e) s e).Perm (window f s e)) := by
  have hmm : async_merge_sort f s e = merge_sort f s e := amGo_eq_mergeGo (e - s) f s e
  refine ⟨⟨(mergeGo_spec (e - s) f s e le_rfl).1, (mergeGo_spec (e - s) f s e le_rfl).2⟩,
    ?_, qsGo_spec (e - s) f s e le_rfl, aqsGo_spec (e - s) f s e le_rfl⟩
  rw [hmm]
  exact ⟨(mergeGo_spec (e - s) f s e le_rfl).1, (mergeGo_spec (e - s) f s e le_rfl).2⟩

/-- C2: at every recursion level of every variant, the two sub-ranges handed
to the recursive or spawned calls — the split at mergeMid for the merge
variants when the range exceeds MAX_PART, the split at the partition head for
the partition variants when they recurse — are disjoint and their union is
exactly the parent range, so no position is duplicated or dropped. -/
theorem subranges_tile_parent (f g : Nat → α) (s e s2 e2 i j : Nat)
    (hm : MAX_PART < e - s) (h2 : 2 ≤ e2 - s2)
    (hq : qsScan g s2 e2 ≠ e2) (ha : aqsScan g s2 e2 ≠ e2) :
    ((s ≤ mergeMid s e ∧ mergeMid s e ≤ e) ∧
      (((s ≤ i ∧ i < mergeMid s e) ∨ (mergeMid s e ≤ i ∧ i < e)) ↔ (s ≤ i ∧ i < e)) ∧
      ¬((s ≤ i ∧ i < mergeMid s e) ∧ (mergeMid s e ≤ i ∧ i < e))) ∧
    ((s2 ≤ qsHead g s2 e2 ∧ qsHead g s2 e2 ≤ e2) ∧
      (((s2 ≤ j ∧ j < qsHead g s2 e2) ∨ (qsHead g s2 e2 ≤ j ∧ j < e2))
        ↔ (s2 ≤ j ∧ j < e2)) ∧
      ¬((s2 ≤ j ∧ j < qsHead g s2 e2) ∧ (qsHead g s2 e2 ≤ j ∧ j < e2))) ∧
    ((s2 ≤ aqsHead g s2 e2 ∧ aqsHead g s2 e2 ≤ e2) ∧
      (((s2 ≤ j ∧ j < aqsHead g s2 e2) ∨ (aqsHead g s2 e2 ≤ j ∧ j < e2))
        ↔ (s2 ≤ j ∧ j < e2)) ∧
      ¬((s2 ≤ j ∧ j < aqsHead g s2 e2) ∧ (aqsHead g s2 e2 ≤ j ∧ j < e2))) := by
  obtain ⟨q1, q2, _⟩ := qsPart_spec g s2 e2 h2 hq
  obtain ⟨a1, a2, _⟩ := aqsPart_spec g s2 e2 h2 ha
  have hmid := mergeMid_bounds s e (by unfold MAX_PART at hm; omega)
  exact ⟨by omega, by omega, by omega⟩

/-- Witness for C2 at a concrete input: a size-16385 range for the merge
split and the two-element buffer 2, 1 for both partition splits. -/
theorem subranges_tile_parent_witness :
    ((0 ≤ mergeMid 0 16385 ∧ mergeMid 0 16385 ≤ 16385) ∧
      (((0 ≤ 7 ∧ 7 < mergeMid 0 16385) ∨ (mergeMid 0 16385 ≤ 7 ∧ 7 < 16385))
        ↔ (0 ≤ 7 ∧ 7 < 16385)) ∧
      ¬((0 ≤ 7 ∧ 7 < mergeMid 0 16385) ∧ (mergeMid 0 16385 ≤ 7 ∧ 7 < 16385))) ∧
    ((0 ≤ qsHead (fun k => 2 - k : Nat → Nat) 0 2 ∧
        qsHead (fun k => 2 - k : Nat → Nat) 0 2 ≤ 2) ∧
      (((0 ≤ 1 ∧ 1 < qsHead (fun k => 2 - k : Nat → Nat) 0 2) ∨
          (qsHead (fun k => 2 - k : Nat → Nat) 0 2 ≤ 1 ∧ 1 < 2)) ↔ (0 ≤ 1 ∧ 1 < 2)) ∧
      ¬((0 ≤ 1 ∧ 1 < qsHead (fun k => 2 - k : Nat → Nat) 0 2) ∧
        (qsHead (fun k => 2 - k : Nat → Nat) 0 2 ≤ 1 ∧ 1 < 2))) ∧
    ((0 ≤ aqsHead (fun k => 2 - k : Nat → Nat) 0 2 ∧
        aqsHead (fun k => 2 - k : Nat → Nat) 0 2 ≤ 2) ∧
      (((0 ≤ 1 ∧ 1 < aqsHead (fun k => 2 - k : Nat → Nat) 0 2) ∨
          (aqsHead (fun k => 2 - k : Nat → Nat) 0 2 ≤ 1 ∧ 1 < 2)) ↔ (0 ≤ 1 ∧ 1 < 2)) ∧
      ¬((0 ≤ 1 ∧ 1 < aqsHead (fun k => 2 - k : Nat → Nat) 0 2) ∧
        (aqsHead (fun k => 2 - k : Nat → Nat) 0 2 ≤ 1 ∧ 1 < 2))) :=
  subranges_tile_parent (fun _ => (0 : Nat)) (fun k => 2 - k) 0 16385 0 2 7 1
    (by decide) (by decide) (by decide) (by decide)

/-- C3: whenever the partition step of quick_sort or async_quick_sort runs to
its recursive calls (size at least 2 and the range not uniform), the computed
split point lies within the closed interval from start to end, every element
at a position before it is at most the pivot value finally used, and every
element at or after it is greater than that pivot value. -/
theorem partition_split_classifies (f : Nat → α) (s e : Nat) (h2 : 2 ≤ e - s)
    (hq : qsScan f s e ≠ e) (ha : aqsScan f s e ≠ e) :
    (s ≤ qsHead f s e ∧ qsHead f s e ≤ e) ∧
    (∀ i, s ≤ i → i < qsHead f s e → (qsPart f s e).1 i ≤ (qsPH f s e).1) ∧
    (∀ i, qsHead f s e ≤ i → i < e → (qsPH f s e).1 < (qsPart f s e).1 i) ∧
    (s ≤ aqsHead f s e ∧ aqsHead f s e ≤ e) ∧
    (∀ i, s ≤ i → i < aqsHead f s e → (aqsPart f s e).1 i ≤ (aqsFPH f s e).2.1) ∧
    (∀ i, aqsHead f s e ≤ i → i < e → (aqsFPH f s e).2.1 < (aqsPart f s e).1 i) := by
  obtain ⟨q1, q2, q3, q4, _, _⟩ := qsPart_spec f s e h2 hq
  obtain ⟨a1, a2, a3, a4, _, _⟩ := aqsPart_spec f s e h2 ha
  exact ⟨⟨by omega, by omega⟩, q3, q4, ⟨by omega, by omega⟩, a3, a4⟩

/-- Witness for C3 at the concrete two-element buffer 2, 1. -/
theorem partition_split_classifies_witness :
    (0 ≤ qsHead (fun k => 2 - k : Nat → Nat) 0 2 ∧
      qsHead (fun k => 2 - k : Nat → Nat) 0 2 ≤ 2) ∧
    (∀ i, 0 ≤ i → i < qsHead (fun k => 2 - k : Nat → Nat) 0 2 →
      (qsPart (fun k => 2 - k : Nat → Nat) 0 2).1 i ≤ (qsPH (fun k => 2 - k : Nat → Nat) 0 2).1) ∧
    (∀ i, qsHead (fun k => 2 - k : Nat → Nat) 0 2 ≤ i → i < 2 →
      (qsPH (fun k => 2 - k : Nat → Nat) 0 2).1 < (qsPart (fun k => 2 - k : Nat → Nat) 0 2).1 i) ∧
    (0 ≤ aqsHead (fun k => 2 - k : Nat → Nat) 0 2 ∧
      aqsHead (fun k => 2 - k : Nat → Nat) 0 2 ≤ 2) ∧
    (∀ i, 0 ≤ i → i < aqsHead (fun k => 2 - k : Nat → Nat) 0 2 →
      (aqsPart (fun k => 2 - k : Nat → Nat) 0 2).1 i
        ≤ (aqsFPH (fun k => 2 - k : Nat → Nat) 0 2).2.1) ∧
    (∀ i, aqsHead (fun k => 2 - k : Nat → Nat) 0 2 ≤ i → i < 2 →
      (aqsFPH (fun k => 2 - k : Nat → Nat) 0 2).2.1
        < (aqsPart (fun k => 2 - k : Nat → Nat) 0 2).1 i) :=
  partition_split_classifies (fun k => 2 - k) 0 2 (by decide) (by decide) (by decide)

/-- C4: every recursive call made by any of the four variants is on a range
strictly smaller than its parent range — for the partition variants the split
point lies strictly between start and end whenever recursion happens — and
consequently every variant terminates on every finite input: any fuel at
least the range size computes the same result as the chosen fuel, so the
recursion bottoms out. -/
theorem recursion_strictly_smaller (f g : Nat → α) (s e s2 e2 n m i : Nat)
    (hm : MAX_PART < e - s) (h2 : 2 ≤ e2 - s2)
    (hq : qsScan g s2 e2 ≠ e2) (ha : aqsScan g s2 e2 ≠ e2)
    (hn : e2 - s2 ≤ n) (hmm : e - s ≤ m) :
    ((s < mergeMid s e ∧ mergeMid s e < e) ∧
      mergeMid s e - s < e - s ∧ e - mergeMid s e < e - s) ∧
    ((s2 < qsHead g s2 e2 ∧ qsHead g s2 e2 < e2) ∧
      qsHead g s2 e2 - s2 < e2 - s2 ∧ e2 - qsHead g s2 e2 < e2 - s2) ∧
    ((s2 < aqsHead g s2 e2 ∧ aqsHead g s2 e2 < e2) ∧
      aqsHead g s2 e2 - s2 < e2 - s2 ∧ e2 - aqsHead g s2 e2 < e2 - s2) ∧
    qsGo n g s2 e2 i = quick_sort g s2 e2 i ∧
    aqsGo n g s2 e2 i = async_quick_sort g s2 e2 i ∧
    mergeGo m f s e i = merge_sort f s e i ∧
    amGo m f s e i = async_merge_sort f s e i := by
  obtain ⟨q1, q2, _⟩ := qsPart_spec g s2 e2 h2 hq
  obtain ⟨a1, a2, _⟩ := aqsPart_spec g s2 e2 h2 ha
  have hmid := mergeMid_bounds s e (by unfold MAX_PART at hm; omega)
  refine ⟨by omega, by omega, by omega, ?_, ?_, ?_, ?_⟩
  · exact congrFun (qsGo_eq n (e2 - s2) g s2 e2 hn le_rfl) i
  · exact congrFun (aqsGo_eq n (e2 - s2) g s2 e2 hn le_rfl) i
  · exact congrFun (mergeGo_eq m (e - s) f s e hmm le_rfl) i
  · have hchain : amGo m f s e = amGo (e - s) f s e := by
      rw [amGo_eq_mergeGo m f s e, amGo_eq_mergeGo (e - s) f s e]
      exact mergeGo_eq m (e - s) f s e hmm le_rfl
    exact congrFun hchain i

/-- Witness for C4 at concrete inputs: a size-16385 range for the merge
variants and the two-element buffer 2, 1 with fuel 5 for the partition
variants. -/
theorem recursion_strictly_smaller_witness :
    ((0 < mergeMid 0 16385 ∧ mergeMid 0 16385 < 16385) ∧
      mergeMid 0 16385 - 0 < 16385 - 0 ∧ 16385 - mergeMid 0 16385 < 16385 - 0) ∧
    ((0 < qsHead (fun k => 2 - k : Nat → Nat) 0 2 ∧
        qsHead (fun k => 2 - k : Nat → Nat) 0 2 < 2) ∧
      qsHead (fun k => 2 - k : Nat → Nat) 0 2 - 0 < 2 - 0 ∧
      2 - qsHead (fun k => 2 - k : Nat → Nat) 0 2 < 2 - 0) ∧
    ((0 < aqsHead (fun k => 2 - k : Nat → Nat) 0 2 ∧
        aqsHead (fun k => 2 - k : Nat → Nat) 0 2 < 2) ∧
      aqsHead (fun k => 2 - k : Nat → Nat) 0 2 - 0 < 2 - 0 ∧
      2 - aqsHead (fun k => 2 - k : Nat → Nat) 0 2 < 2 - 0) ∧
    qsGo 5 (fun k => 2 - k : Nat → Nat) 0 2 1 = quick_sort (fun k => 2 - k : Nat → Nat) 0 2 1 ∧
    aqsGo 5 (fun k => 2 - k : Nat → Nat) 0 2 1
      = async_quick_sort (fun k => 2 - k : Nat → Nat) 0 2 1 ∧
    mergeGo 16385 (fun _ => (0 : Nat)) 0 16385 1 = merge_sort (fun _ => (0 : Nat)) 0 16385 1 ∧
    amGo 16385 (fun _ => (0 : Nat)) 0 16385 1
      = async_merge_sort (fun _ => (0 : Nat)) 0 16385 1 :=
  recursion_strictly_smaller (fun _ => 0) (fun k => 2 - k) 0 16385 0 2 5 16385 1
    (by decide) (by decide) (by decide) (by decide) (by decide) (by decide)

/-- C5: a non-empty all-equal range is detected by the equal-run scan of
quick_sort and async_quick_sort, which return with the buffer pointwise
unchanged and a split count of zero, i.e. without any swap and without
recursing; in particular 1000 equal elements come back unchanged. -/
theorem uniform_range_unchanged (f : Nat → α) (s e i : Nat) (c : α)
    (hu : ∀ j, s ≤ j → j < e → f j = c) :
    quick_sort f s e i = f i ∧ async_quick_sort f s e i = f i ∧
    quick_sort_splits f s e = 0 ∧ async_quick_sort_splits f s e = 0 := by
  obtain ⟨u1, u2, u3, u4⟩ := quick_sort_uniform f s e c hu
  exact ⟨congrFun u1 i, congrFun u2 i, u3, u4⟩

/-- Witness for C5 at the concrete input of 1000 elements all equal to 7. -/
theorem uniform_range_unchanged_witness :
    quick_sort (fun _ => (7 : Nat)) 0 1000 123 = 7 ∧
    async_quick_sort (fun _ => (7 : Nat)) 0 1000 123 = 7 ∧
    quick_sort_splits (fun _ => (7 : Nat)) 0 1000 = 0 ∧
    async_quick_sort_splits (fun _ => (7 : Nat)) 0 1000 = 0 :=
  uniform_range_unchanged (fun _ => 7) 0 1000 123 7 (fun j h1 h2 => rfl)

/-- C6 (amended): of the two sequential flavors, only the merge-based one
consults the threshold: merge_sort on a range of size at most MAX_PART
delegates to the baseline sort and is extensionally equal to it there (as is
async_merge_sort); quick_sort contains no threshold check and recurses by
partitioning even on ranges below the threshold. -/
theorem threshold_delegation_merge_only (f : Nat → α) (s e i : Nat)
    (hle : e - s ≤ MAX_PART) :
    merge_sort f s e i = sortRange f s e i ∧
    async_merge_sort f s e i = sortRange f s e i := by
  obtain ⟨hm, ha⟩ := merge_sort_below_threshold f s e hle
  exact ⟨congrFun hm i, congrFun ha i⟩

/-- Witness for the amended C6 at a concrete range of size 3. -/
theorem threshold_delegation_merge_only_witness :
    merge_sort (fun k => 5 - k : Nat → Nat) 0 3 1
      = sortRange (fun k => 5 - k : Nat → Nat) 0 3 1 ∧
    async_merge_sort (fun k => 5 - k : Nat → Nat) 0 3 1
      = sortRange (fun k => 5 - k : Nat → Nat) 0 3 1 :=
  threshold_delegation_merge_only (fun k => 5 - k) 0 3 1 (by decide)

/-- Counterexample to C6 as stated: the claim says quick_sort on a range of
size at most MAX_PART delegates to the baseline sort and returns without
further splitting, which would make its split count zero; on the
two-element buffer 2, 1 (size 2, well below MAX_PART) quick_sort performs a
partition-and-recurse step, so its split count is not zero. -/
theorem quick_sort_splits_below_threshold_cex :
    quick_sort_splits (fun k => 2 - k : Nat → Nat) 0 2 ≠ 0 := by decide

/-- C7: the claim says a spawned child failure propagates to the joining
parent; the source joins with future::wait(), which blocks but does not
rethrow the stored exception, so the parent completes normally even when a
child task stored a failure — evaluating the join model at a failing child
shows the parent outcome is normal completion. -/
theorem wait_join_swallows_child_failure :
    asyncJoin (TaskOutcome.err 0) (TaskOutcome.ok : TaskOutcome Nat) = TaskOutcome.ok ∧
    asyncJoin (TaskOutcome.ok : TaskOutcome Nat) (TaskOutcome.err 0) = TaskOutcome.ok :=
  ⟨rfl, rfl⟩

/-- C8: on every well-formed range (start at most end), the partition step of
quick_sort and of async_quick_sort never reads or writes a position outside
the range.  The statement covers every well-formed range and each portion of
the partition step under exactly the condition under which the source
executes it: the pivot read and the equal-run scan run on every range of
size at least 2 — uniform ranges included, where the scan exercises its
head-below-end boundary guard and runs to end — and there the scan result is
bounded by the range and depends only on the contents of the range; the
two-pointer loop and the final split-point adjustment additionally run only
when the scan stopped short of end, and there the partition phase leaves
every position outside the range untouched and its split point and written
values depend only on the contents of the range; and unconditionally the two
whole sorts (whose every access is an access of some portion of the
partition step or of a recursive call on a sub-range) leave positions
outside the range untouched and depend only on the contents of the range. -/
theorem partition_reads_writes_in_range (f g : Nat → α) (s e i j : Nat)
    (hAg : Agree f g s e) (hse : s ≤ e)
    (hi : i < s ∨ e ≤ i) (hj1 : s ≤ j) (hj2 : j < e) :
    (2 ≤ e - s →
      (s ≤ qsScan f s e ∧ qsScan f s e ≤ e) ∧ qsScan f s e = qsScan g s e ∧
      (s ≤ aqsScan f s e ∧ aqsScan f s e ≤ e) ∧ aqsScan f s e = aqsScan g s e) ∧
    (2 ≤ e - s → qsScan f s e ≠ e →
      (qsPart f s e).1 i = f i ∧ qsHead f s e = qsHead g s e ∧
      (qsPart f s e).1 j = (qsPart g s e).1 j) ∧
    (2 ≤ e - s → aqsScan f s e ≠ e →
      (aqsPart f s e).1 i = f i ∧ aqsHead f s e = aqsHead g s e ∧
      (aqsPart f s e).1 j = (aqsPart g s e).1 j) ∧
    (quick_sort f s e i = f i ∧ async_quick_sort f s e i = f i) ∧
    (quick_sort f s e j = quick_sort g s e j ∧
      async_quick_sort f s e j = async_quick_sort g s e j) := by
  refine ⟨?_, ?_, ?_, ?_, ?_⟩
  · intro h2
    obtain ⟨hq1, hq2, _, _⟩ := scanEq_spec f (qsPivot f s e) s e hse
    obtain ⟨ha1, ha2, _, _⟩ := scanEq_spec f (f s) s e hse
    have hpiv : qsPivot f s e = qsPivot g s e := hAg _ (by omega) (by omega)
    have hqscan : qsScan f s e = qsScan g s e := by
      show scanEqGo (e - s) f (qsPivot f s e) s e = scanEqGo (e - s) g (qsPivot g s e) s e
      rw [hpiv]
      exact scanEqGo_congr (e - s) f g (qsPivot g s e) s e (fun k hk1 hk2 => hAg k hk1 hk2)
    have hps : f s = g s := hAg s le_rfl (by omega)
    have hascan : aqsScan f s e = aqsScan g s e := by
      show scanEqGo (e - s) f (f s) s e = scanEqGo (e - s) g (g s) s e
      rw [hps]
      exact scanEqGo_congr (e - s) f g (g s) s e (fun k hk1 hk2 => hAg k hk1 hk2)
    exact ⟨⟨hq1, hq2⟩, hqscan, ⟨ha1, ha2⟩, hascan⟩
  · intro h2 hq
    obtain ⟨_, _, _, _, p5, _⟩ := qsPart_spec f s e h2 hq
    obtain ⟨c1, c2, c3, c4⟩ := qsPart_congr f g s e h2 hq hAg
    exact ⟨p5 i hi, c3, c4 j hj1 hj2⟩
  · intro h2 ha
    obtain ⟨_, _, _, _, a5, _⟩ := aqsPart_spec f s e h2 ha
    obtain ⟨d1, d2, d3, d4, d5⟩ := aqsPart_congr f g s e h2 ha hAg
    exact ⟨a5 i hi, d4, d5 j hj1 hj2⟩
  · exact ⟨quick_sort_frame f s e i hi, async_quick_sort_frame f s e i hi⟩
  · exact ⟨quick_sort_congr f g s e hAg j hj1 hj2,
      aqsGo_congr (e - s) f g s e hAg j hj1 hj2⟩

/-- Witness for C8 at the concrete two-element buffer 2, 1, an outside
position 5 and an inside position 1. -/
theorem partition_reads_writes_in_range_witness :
    (2 ≤ 2 - 0 →
      (0 ≤ qsScan (fun k => 2 - k : Nat → Nat) 0 2 ∧
        qsScan (fun k => 2 - k : Nat → Nat) 0 2 ≤ 2) ∧
      qsScan (fun k => 2 - k : Nat → Nat) 0 2 = qsScan (fun k => 2 - k : Nat → Nat) 0 2 ∧
      (0 ≤ aqsScan (fun k => 2 - k : Nat → Nat) 0 2 ∧
        aqsScan (fun k => 2 - k : Nat → Nat) 0 2 ≤ 2) ∧
      aqsScan (fun k => 2 - k : Nat → Nat) 0 2 = aqsScan (fun k => 2 - k : Nat → Nat) 0 2) ∧
    (2 ≤ 2 - 0 → qsScan (fun k => 2 - k : Nat → Nat) 0 2 ≠ 2 →
      (qsPart (fun k => 2 - k : Nat → Nat) 0 2).1 5 = 2 - 5 ∧
      qsHead (fun k => 2 - k : Nat → Nat) 0 2 = qsHead (fun k => 2 - k : Nat → Nat) 0 2 ∧
      (qsPart (fun k => 2 - k : Nat → Nat) 0 2).1 1
        = (qsPart (fun k => 2 - k : Nat → Nat) 0 2).1 1) ∧
    (2 ≤ 2 - 0 → aqsScan (fun k => 2 - k : Nat → Nat) 0 2 ≠ 2 →
      (aqsPart (fun k => 2 - k : Nat → Nat) 0 2).1 5 = 2 - 5 ∧
      aqsHead (fun k => 2 - k : Nat → Nat) 0 2 = aqsHead (fun k => 2 - k : Nat → Nat) 0 2 ∧
      (aqsPart (fun k => 2 - k : Nat → Nat) 0 2).1 1
        = (aqsPart (fun k => 2 - k : Nat → Nat) 0 2).1 1) ∧
    (quick_sort (fun k => 2 - k : Nat → Nat) 0 2 5 = 2 - 5 ∧
      async_quick_sort (fun k => 2 - k : Nat → Nat) 0 2 5 = 2 - 5) ∧
    (quick_sort (fun k => 2 - k : Nat → Nat) 0 2 1
        = quick_sort (fun k => 2 - k : Nat → Nat) 0 2 1 ∧
      async_quick_sort (fun k => 2 - k : Nat → Nat) 0 2 1
        = async_quick_sort (fun k => 2 - k : Nat → Nat) 0 2 1) :=
  partition_reads_writes_in_range (fun k => 2 - k) (fun k => 2 - k) 0 2 5 1
    (fun _ _ _ => rfl) (by decide) (by decide) (by decide) (by decide)

/-- C9: applying any of the four sort variants to an already-sorted
(non-decreasing) range yields the identical buffer, element for element. -/
theorem sorted_input_identical (f : Nat → α) (s e i : Nat)
    (hs : (window f s e).Sorted (· ≤ ·)) :
    merge_sort f s e i = f i ∧ async_merge_sort f s e i = f i ∧
    quick_sort f s e i = f i ∧ async_quick_sort f s e i = f i := by
  have hmer : ∀ i, merge_sort f s e i = f i :=
    sortlike_id (merge_sort f s e) f s e hs (mergeGo_spec (e - s) f s e le_rfl).1
      (mergeGo_spec (e - s) f s e le_rfl).2
      (fun i hi => mergeGo_frame (e - s) f s e i hi)
  have hqs : ∀ i, quick_sort f s e i = f i :=
    sortlike_id (quick_sort f s e) f s e hs (quick_sort_spec f s e).1
      (quick_sort_spec f s e).2 (fun i hi => quick_sort_frame f s e i hi)
  have haqs : ∀ i, async_quick_sort f s e i = f i :=
    sortlike_id (async_quick_sort f s e) f s e hs (async_quick_sort_spec f s e).1
      (async_quick_sort_spec f s e).2 (fun i hi => async_quick_sort_frame f s e i hi)
  have hmm : async_merge_sort f s e = merge_sort f s e := amGo_eq_mergeGo (e - s) f s e
  refine ⟨hmer i, ?_, hqs i, haqs i⟩
  rw [hmm]
  exact hmer i

/-- Witness for C9 at the already-sorted concrete buffer 0, 1, 2, 3. -/
theorem sorted_input_identical_witness :
    merge_sort (fun k => k : Nat → Nat) 0 4 2 = 2 ∧
    async_merge_sort (fun k => k : Nat → Nat) 0 4 2 = 2 ∧
    quick_sort (fun k => k : Nat → Nat) 0 4 2 = 2 ∧
    async_quick_sort (fun k => k : Nat → Nat) 0 4 2 = 2 :=
  sorted_input_identical (fun k => k) 0 4 2 (by decide)

/-- C10: each parallel variant is a deterministic function of the input:
under any explicit schedule of the two joined subtasks (the oracle chooses,
at every fork, which subtask acts on the shared buffer first), the result
equals the unscheduled model, and any two schedules give the same result —
the spawned subtasks work on disjoint sub-ranges and both are joined before
the parent combines or returns, so scheduling cannot influence the output. -/
theorem schedule_independent_result (o o2 : Nat → Nat → Bool) (f : Nat → α) (s e i : Nat) :
    amGoS o (e - s) f s e i = async_merge_sort f s e i ∧
    aqsGoS o (e - s) f s e i = async_quick_sort f s e i ∧
    amGoS o (e - s) f s e i = amGoS o2 (e - s) f s e i ∧
    aqsGoS o (e - s) f s e i = aqsGoS o2 (e - s) f s e i := by
  have h1 := amGoS_eq o (e - s) f s e le_rfl
  have h2 := aqsGoS_eq o (e - s) f s e le_rfl
  have h3 := amGoS_eq o2 (e - s) f s e le_rfl
  have h4 := aqsGoS_eq o2 (e - s) f s e le_rfl
  exact ⟨congrFun h1 i, congrFun h2 i, by rw [h1, h3], by rw [h2, h4]⟩
